import Mathlib

/-!
# Verification of the LayerLite core engines

This file gives a shallow embedding, in Lean 4, of the core data model and
operations of the LayerLite package-pruning tool:

* the reversible file-pruning engine of `src/analyze_recursive_imports.py`
  (`has_file`, `virtual_remove_unused_files`, `re_add_virtualy_removed_files`,
  `compute_virtual_gained_size`, `extract_used_files`),
* the dependency-graph builder of the same module
  (`Tree`, `explore_name_definitions`, `extract_imports`,
  `stub_add_compiled_file`), and
* the import normalizer of `src/comment_removed_imports_inits.py`
  (`split_imports`, `single_import_per_line`,
  `restore_init_files_to_initial`).

Modelling conventions:

* A directory tree is an inductive `FSTree`; a directory's children are a
  list of `(name, subtree)` pairs whose order plays the role of the
  `os.listdir` enumeration order.  File contents are `String`s and a file's
  byte size is its content length.
* Python `dict`s (the used-path index, `import_lines`, the flat in-memory
  view of a directory) are association lists with Python's update-or-append
  assignment semantics, so insertion order is preserved exactly as CPython
  preserves it.
* In-place mutation is modelled by explicit state passing: a function that
  mutates a dict or a directory returns the updated value.
* Filesystem walks that are not structurally recursive take a fuel
  parameter; `none` covers both fuel exhaustion and the places where the
  Python raises (e.g. calling `.get` on a string).  Theorems are therefore
  stated under a `... = some ...` hypothesis, read as "the Python call
  returns normally".
* Substring tests (`'FILE' in str(arbo)`, `'__DELETED_' in el`) are
  modelled on `List Char`.
* The external resolver (jedi) is an oracle: its per-file answers
  (`get_names`, `goto`, directory listings, `ast.parse` output) are inputs
  to the embedded functions, which translate only the repository's own
  logic.
-/

namespace LayerLite

/-! ## Character-list utilities (Python `in`, `str.replace(_, _, 1)`, splits) -/
/-- Boolean substring test: Python's `needle in haystack` on strings. -/
def isInfixB (p s : List Char) : Bool :=
  go s
where go : List Char → Bool
  | [] => p.isEmpty
  | c :: rest => p.isPrefixOf (c :: rest) || go rest

/-- Remove the first occurrence of `pat` (Python `s.replace(pat, '', 1)`). -/
def dropFirstOcc (pat : List Char) : List Char → List Char
  | [] => []
  | c :: rest =>
    if pat.isPrefixOf (c :: rest) then (c :: rest).drop pat.length
    else c :: dropFirstOcc pat rest

/-- Split on a single character (Python `s.split('/')` and friends). -/
def splitOnChar (sep : Char) (cs : List Char) : List (List Char) :=
  go cs []
where go : List Char → List Char → List (List Char)
  | [], acc => [acc.reverse]
  | c :: rest, acc => if c = sep then acc.reverse :: go rest [] else go rest (c :: acc)

/-- Split on a multi-character separator, leftmost non-overlapping matches
(Python `s.split('site-packages/')`).  Fuel-driven; `sep` is nonempty in
every use. -/
def splitOnSeq (sep : List Char) : Nat → List Char → List Char → List (List Char)
  | 0, cs, acc => [acc.reverse ++ cs]
  | _ + 1, [], acc => [acc.reverse]
  | fuel + 1, c :: rest, acc =>
    if sep.isPrefixOf (c :: rest) then
      acc.reverse :: splitOnSeq sep fuel ((c :: rest).drop sep.length) []
    else
      splitOnSeq sep fuel rest (c :: acc)

/-! ## The used-path index

`extract_used_files` produces a nested Python dict whose values are either
the string `'FILE'` (a used leaf), the string `'DELETED'` (written by the
pruner), or a further dict.  `Idx` is that value space; `IdxMap` is a dict
with CPython's insertion-order/update-in-place assignment semantics. -/
inductive Idx where
  | leaf (s : String)
  | node (m : List (String × Idx))

abbrev IdxMap := List (String × Idx)

/-- Python `d.get(x)` / `d.get(x, False)` (absence modelled as `none`). -/
def lookupA : IdxMap → String → Option Idx
  | [], _ => none
  | (k, v) :: rest, x => if k = x then some v else lookupA rest x

/-- Python `d[x] = v`: update in place if present, else append. -/
def setA : IdxMap → String → Idx → IdxMap
  | [], x, v => [(x, v)]
  | (k, w) :: rest, x, v => if k = x then (k, v) :: rest else (k, w) :: setA rest x v

/-- Python truthiness of an index value: `''` and `{}` are falsy. -/
def idxTruthy : Idx → Bool
  | .leaf s => !(s == "")
  | .node m => !m.isEmpty

/-- Truthiness of a `d.get` result (`None` is falsy). -/
def optTruthy : Option Idx → Bool
  | none => false
  | some v => idxTruthy v

/-- One rendered dict entry `'k': v` given the already rendered value. -/
def renderEntry (k : String) (rv : List Char) : List Char :=
  '\'' :: (k.toList ++ '\'' :: ':' :: ' ' :: rv)

mutual
/-- Python `str` of an index value (`str` of a dict renders
`{'k': v, ...}` with quoted string keys and values). -/
def renderIdx : Idx → List Char
  | .leaf s => '\'' :: (s.toList ++ ['\''])
  | .node m => '{' :: (renderMap m ++ ['}'])
def renderMap : List (String × Idx) → List Char
  | [] => []
  | [(k, v)] => renderEntry k (renderIdx v)
  | (k, v) :: rest => renderEntry k (renderIdx v) ++ ',' :: ' ' :: renderMap rest
end

/-- The characters of the literal `'FILE'`. -/
def fileTok : List Char := ['F', 'I', 'L', 'E']

/-- `has_file(arbo)` from `analyze_recursive_imports.py`:
`return 'FILE' in str(arbo)`. -/
def has_file (k : Idx) : Bool := isInfixB fileTok (renderIdx k)

mutual
/-- Structural view of `has_file`: some key or string value of the nested
index contains `FILE` as a substring. -/
def idxHasFILE : Idx → Bool
  | .leaf s => isInfixB fileTok s.toList
  | .node m => mapHasFILE m
def mapHasFILE : List (String × Idx) → Bool
  | [] => false
  | (k, v) :: rest => isInfixB fileTok k.toList || idxHasFILE v || mapHasFILE rest
end

mutual
/-- Structural test: the index contains a `'FILE'` leaf (a used file),
at any depth. -/
def hasUsedLeaf : Idx → Bool
  | .leaf s => s == "FILE"
  | .node m => mapHasUsedLeaf m
def mapHasUsedLeaf : List (String × Idx) → Bool
  | [] => false
  | (_, v) :: rest => hasUsedLeaf v || mapHasUsedLeaf rest
end

/-! ## Directory trees, the file pruner and the restorer -/
/-- A directory tree.  A `dir`'s entry list order models the `os.listdir`
enumeration order; file byte size is content length. -/
inductive FSTree where
  | file (content : String)
  | dir (entries : List (String × FSTree))

/-- The soft-delete marker `'__DELETED_'`. -/
def markTok : List Char := "__DELETED_".toList

/-- Python `'__DELETED_' in el`. -/
def containsMarker (s : String) : Bool := isInfixB markTok s.toList

mutual
/-- No entry name anywhere below carries the soft-delete marker. -/
def noMarkersT : FSTree → Bool
  | .file _ => true
  | .dir es => noMarkersE es
def noMarkersE : List (String × FSTree) → Bool
  | [] => true
  | (el, t) :: rest => !containsMarker el && noMarkersT t && noMarkersE rest
end

mutual
/-- No entry name anywhere below contains `FILE` as a substring. -/
def namesFILEfreeT : FSTree → Bool
  | .file _ => true
  | .dir es => namesFILEfreeE es
def namesFILEfreeE : List (String × FSTree) → Bool
  | [] => true
  | (el, t) :: rest => !isInfixB fileTok el.toList && namesFILEfreeT t && namesFILEfreeE rest
end

/-- Does a name occur among a directory's entry names? -/
def hasEntryName (x : String) : List (String × FSTree) → Bool
  | [] => false
  | (el, _) :: rest => el == x || hasEntryName x rest

mutual
/-- Entry names are pairwise distinct in every directory (true of any
real directory tree). -/
def distinctNamesT : FSTree → Bool
  | .file _ => true
  | .dir es => distinctNamesE es
def distinctNamesE : List (String × FSTree) → Bool
  | [] => true
  | (el, t) :: rest => !hasEntryName el rest && distinctNamesT t && distinctNamesE rest
end

/-- `virtual_remove_unused_files(src_folder, to_keep)` of
`analyze_recursive_imports.py`, as a function from the directory's entry
list and the (mutated-in-place) index to the updated pair.  Fuel-driven;
`none` also covers the `AttributeError` Python raises when `to_keep` is a
string (`'FILE'`/`'DELETED'`) and an entry reaches `.get`. -/
def virtual_remove_unused_files :
    Nat → List (String × FSTree) → Idx → Option (List (String × FSTree) × Idx)
  | 0, _, _ => none
  | _ + 1, [], to_keep => some ([], to_keep)
  | fuel + 1, (el, sub) :: rest, to_keep =>
    if (el == "__init__.py" && has_file to_keep) || containsMarker el then
      -- `continue`
      match virtual_remove_unused_files fuel rest to_keep with
      | some (rest', k') => some ((el, sub) :: rest', k')
      | none => none
    else
      match sub with
      | .dir d =>
        match to_keep with
        | .leaf _ => none  -- `to_keep.get(el)` on a str: AttributeError
        | .node m =>
          -- `if not to_keep.get(el): to_keep[el] = {}`
          let m1 := if optTruthy (lookupA m el) then m else setA m el (.node [])
          let subk := (lookupA m1 el).getD (.node [])
          match virtual_remove_unused_files fuel d subk with
          | none => none
          | some (d', ksub) =>
            match virtual_remove_unused_files fuel rest (.node (setA m1 el ksub)) with
            | some (rest', k') => some ((el, .dir d') :: rest', k')
            | none => none
      | .file c =>
        match to_keep with
        | .leaf _ => none  -- `to_keep.get(el, False)` on a str: AttributeError
        | .node m =>
          if optTruthy (lookupA m el) then
            match virtual_remove_unused_files fuel rest (.node m) with
            | some (rest', k') => some ((el, .file c) :: rest', k')
            | none => none
          else
            -- `shutil.copy2(full_path, backup_path); os.remove(full_path);`
            -- `to_keep[el] = 'DELETED'`
            match virtual_remove_unused_files fuel rest
                (.node (setA m el (.leaf "DELETED"))) with
            | some (rest', k') => some (("__DELETED_" ++ el, .file c) :: rest', k')
            | none => none

/-- `re_add_virtualy_removed_files(folder_path)`: every file whose full
path contains the marker is renamed, stripping the first marker occurrence
from its basename.  `pre` is the rendered path of the enclosing directory. -/
def re_add_virtualy_removed_files :
    Nat → List Char → List (String × FSTree) → Option (List (String × FSTree))
  | 0, _, _ => none
  | _ + 1, _, [] => some []
  | fuel + 1, pre, (el, sub) :: rest =>
    match sub with
    | .file c =>
      let el' := if isInfixB markTok (pre ++ el.toList) then
          (dropFirstOcc markTok el.toList).asString
        else el
      match re_add_virtualy_removed_files fuel pre rest with
      | some rest' => some ((el', .file c) :: rest')
      | none => none
    | .dir d =>
      match re_add_virtualy_removed_files fuel (pre ++ el.toList ++ ['/']) d with
      | none => none
      | some d' =>
        match re_add_virtualy_removed_files fuel pre rest with
        | some rest' => some ((el, .dir d') :: rest')
        | none => none

mutual
/-- All files below an entry of a directory whose rendered path is `pre`:
full path and byte size (`Path(..).rglob('*')` restricted to `is_file()`). -/
def rglobT (pre : List Char) : String → FSTree → List (List Char × Nat)
  | name, .file c => [(pre ++ name.toList, c.length)]
  | name, .dir es => rglobE (pre ++ name.toList ++ ['/']) es
def rglobE (pre : List Char) : List (String × FSTree) → List (List Char × Nat)
  | [] => []
  | (el, t) :: rest => rglobT pre el t ++ rglobE pre rest
end

/-- The numeric content of the dict returned (and printed) by
`compute_virtual_gained_size`; the Python string formatting (`MB`, `%.1f`)
is dropped, the underlying exact numbers are kept. -/
structure SizeReport where
  total_files : Nat
  deleted_files : Nat
  deleted_pct : ℚ
  size_before : ℤ
  size_after : ℤ
  size_reduction : ℤ
  size_reduction_pct : ℚ

/-- `compute_virtual_gained_size(folder_path)` of
`analyze_recursive_imports.py`. -/
def compute_virtual_gained_size (folder_path : String)
    (es : List (String × FSTree)) : SizeReport :=
  let all_files := rglobE (folder_path.toList ++ ['/']) es
  let deleted_files := all_files.filter (fun f => isInfixB markTok f.1)
  let size_all : ℤ := ((all_files.map (fun f => f.2)).sum : ℕ)
  let size_deleted : ℤ := ((deleted_files.map (fun f => f.2)).sum : ℕ)
  let size_kept : ℤ := size_all - size_deleted
  { total_files := all_files.length
    deleted_files := deleted_files.length
    deleted_pct :=
      if all_files.isEmpty then 0
      else (100 * deleted_files.length : ℚ) / all_files.length
    size_before := size_all
    size_after := size_kept
    size_reduction := size_deleted
    size_reduction_pct :=
      if size_all = 0 then 0 else (100 * size_deleted : ℚ) / size_all }

/-! ## `extract_used_files` -/
/-- Lexicographic (code-point) Python string order. -/
def lexLe : List Char → List Char → Bool
  | [], _ => true
  | _ :: _, [] => false
  | a :: as, b :: bs => if a = b then lexLe as bs else decide (a < b)

def insertSorted (x : String) : List String → List String
  | [] => [x]
  | y :: rest => if lexLe x.toList y.toList then x :: y :: rest else y :: insertSorted x rest

def insertionSortStr : List String → List String
  | [] => []
  | x :: rest => insertSorted x (insertionSortStr rest)

/-- Python `set(..)`: drop duplicates. -/
def dedupStr : List String → List String
  | [] => []
  | x :: rest =>
    let r := dedupStr rest
    if r.contains x then r else x :: r

/-- The characters of `'site-packages/'`. -/
def sitePackagesTok : List Char := "site-packages/".toList

/-- Python `s.split(sep)` for a multi-character separator. -/
def pySplit (sep : List Char) (cs : List Char) : List (List Char) :=
  splitOnSeq sep (cs.length + 1) cs []

/-- The `position.setdefault(..)` walk of `extract_used_files` for one
split path `arbo`; `last` is `arbo[-1]`.  `none` models the
`AttributeError` raised when the walk lands on a string value and the loop
has further segments. -/
def insertArbo : Nat → IdxMap → String → List String → Option IdxMap
  | 0, _, _, _ => none
  | _ + 1, m, _, [] => some m
  | fuel + 1, m, last, i :: rest =>
    let m1 :=
      if i == last then
        if (lookupA m i).isSome then m else setA m i (.leaf "FILE")
      else
        if (lookupA m i).isSome then m else setA m i (.node [])
    if rest.isEmpty then some m1
    else
      match lookupA m1 i with
      | some (.node sub) =>
        match insertArbo fuel sub last rest with
        | some sub' => some (setA m1 i (.node sub'))
        | none => none
      | _ => none

/-- `extract_used_files(resulting_tree)` from the flat list of resolved
and probable paths (`get_all_paths` output): sort the deduplicated paths,
split each at `'site-packages/'`, and insert the `/`-segments of the
second piece into the nested index. -/
def extract_used_files (fuel : Nat) (l_paths : List String) : Option IdxMap :=
  go fuel (insertionSortStr (dedupStr l_paths)) []
where go : Nat → List String → IdxMap → Option IdxMap
  | 0, _, _ => none
  | _ + 1, [], m => some m
  | fuel + 1, p :: rest, m =>
    let arbo := pySplit sitePackagesTok p.toList
    if arbo.length > 1 then
      let segs := (splitOnChar '/' (arbo.getD 1 [])).map List.asString
      match insertArbo fuel m (segs.getLastD "") segs with
      | some m' => go fuel rest m'
      | none => none
    else
      go fuel rest m

/-! ## The dependency graph builder (`Tree`, `explore_name_definitions`,
`extract_imports`, `stub_add_compiled_file`)

The external resolver (jedi) is an oracle.  A `JediDefinition` is one
element of a `goto` answer (the builder reads `.module_path` and
`.full_name`; `.type` is carried but never read).  A `JediName` is one
name/reference with its `goto` answer attached.  Python object references
(`parent`, elements of `children`) become indices into an arena of
`Tree` records; in-place attribute assignment becomes `Arena.set`. -/
structure JediDefinition where
  module_path : Option String
  full_name : Option String
  dtype : String
  deriving DecidableEq

structure JediName where
  name : String
  line : Nat
  ntype : String
  goto : List JediDefinition
  deriving DecidableEq

/-- The `Tree` dataclass of `analyze_recursive_imports.py`. -/
structure Tree where
  depth : Nat := 0
  name : Option String := none
  path : Option String := none
  children : List Nat := []
  parent : Option Nat := none
  not_found : Bool := false
  probable_paths : List String := []
  module : Option String := none
  is_stub : Bool := false
  line : Option Nat := none
  is_wildcard : Bool := false
  other_parents : List (Option String) := []
  has_been_analyzed : Bool := false
  deriving DecidableEq

structure Arena where
  nodes : List Tree
  deriving DecidableEq

def Arena.get (st : Arena) (i : Nat) : Tree := st.nodes.getD i {}

def Arena.set (st : Arena) (i : Nat) (t : Tree) : Arena := ⟨st.nodes.set i t⟩

/-- `to_root`: follow `parent` links (fuel-bounded). -/
def Tree.to_root (st : Arena) : Nat → Nat → Nat
  | 0, i => i
  | fuel + 1, i =>
    match (st.get i).parent with
    | some p => Tree.to_root st fuel p
    | none => i

/-- `search_node(path)`: depth-first search through `children` for the
first node whose `path` equals the argument (Python returns the node, or
`False` when there is none). -/
def Tree.search_node (st : Arena) : Nat → Nat → String → Option Nat
  | 0, _, _ => none
  | fuel + 1, i, p =>
    if (st.get i).path = some p then some i
    else (st.get i).children.findSome? (fun c => Tree.search_node st fuel c p)

/-- Python `set.add` on freshly created `Tree` objects: dataclass
equality on the fields (the shared `parent` object compares by arena
index). -/
def insertTreeSet (l : List Tree) (t : Tree) : List Tree :=
  if l.contains t then l else l ++ [t]

/-- Python set union `a | b`. -/
def unionTreeSet (a b : List Tree) : List Tree := b.foldl insertTreeSet a

/-- The unresolved child created when `goto` returns nothing, or returns
a module-typed name with no backing file. -/
def notFoundChild (treeId tdepth : Nat) (nm : JediName)
    (line_to_ref : Nat → Option String) (is_wildcard : Bool) : Tree :=
  { depth := tdepth + 1, name := some nm.name, not_found := true,
    module := line_to_ref nm.line, line := some nm.line,
    is_wildcard := is_wildcard, parent := some treeId }

/-- One iteration of the `for definition in definitions` loop of
`explore_name_definitions`. -/
def explore_step (treeId tdepth : Nat) (tpath : Option String) (nm : JediName)
    (line_to_ref : Nat → Option String) (is_wildcard : Bool)
    (acc : Arena × List Tree) (defn : JediDefinition) : Arena × List Tree :=
  let (st, children) := acc
  match defn.module_path with
  | some definition_path =>
    if some definition_path ≠ tpath then
      match Tree.search_node st st.nodes.length
          (Tree.to_root st st.nodes.length treeId) definition_path with
      | none =>
        (st, insertTreeSet children
          { depth := tdepth + 1, path := some definition_path,
            name := defn.full_name, module := line_to_ref nm.line,
            line := some nm.line, parent := some treeId,
            is_wildcard := is_wildcard })
      | some nodeId =>
        (st.set nodeId { st.get nodeId with
            other_parents := (st.get nodeId).other_parents ++ [tpath] },
          children)
    else (st, children)
  | none =>
    if nm.ntype = "module" then
      (st, insertTreeSet children (notFoundChild treeId tdepth nm line_to_ref is_wildcard))
    else (st, children)

/-- `explore_name_definitions(tree, name, parent_path, line_to_ref,
is_wildcard)`: follow one reference's `goto` answer.  Returns the updated
arena (for the `other_parents` appends) and the set of freshly created
child objects — Python attaches them to `tree.children` only at the end
of `extract_imports`, so `search_node` cannot see them yet. -/
def explore_name_definitions (st : Arena) (treeId : Nat) (nm : JediName)
    (line_to_ref : Nat → Option String) (is_wildcard : Bool) :
    Arena × List Tree :=
  let tree := st.get treeId
  if nm.goto = [] then
    (st, [notFoundChild treeId tree.depth nm line_to_ref is_wildcard])
  else
    nm.goto.foldl (explore_step treeId tree.depth tree.path nm line_to_ref is_wildcard)
      (st, [])

/-- The per-file answer of the external resolver, as produced by
`get_references` (jedi calls plus the wildcard/line filtering, which the
claims do not touch): the bound names, the wildcard references, and the
`line_to_ref` map (of which only `.name` is ever read). -/
structure RefData where
  names : List JediName
  wildcard_imports : List JediName
  line_to_ref : Nat → Option String

/-- `extract_imports(tree)`: explore every name and wildcard reference,
union the resulting child sets, then assign `tree.children`. -/
def extract_imports (st : Arena) (treeId : Nat) (env : String → RefData) : Arena :=
  match (st.get treeId).path with
  | none => st
  | some parent_path =>
    if parent_path = "" then st
    else
      let refs := env parent_path
      let acc1 := refs.names.foldl (fun (a : Arena × List Tree) nm =>
        let (st2, cs) := explore_name_definitions a.1 treeId nm refs.line_to_ref false
        (st2, unionTreeSet a.2 cs)) (st, [])
      let acc2 := refs.wildcard_imports.foldl (fun (a : Arena × List Tree) nm =>
        let (st2, cs) := explore_name_definitions a.1 treeId nm refs.line_to_ref true
        (st2, unionTreeSet a.2 cs)) acc1
      let base := acc2.1.nodes.length
      let st3 : Arena := ⟨acc2.1.nodes ++ acc2.2⟩
      st3.set treeId { st3.get treeId with
        children := (List.range acc2.2.length).map (base + ·) }

/-! ## Stub expansion (`stub_add_compiled_file`) -/
/-- Join a split path back with `/`  (for `os.path.dirname`). -/
def joinWith (sep : Char) : List (List Char) → List Char
  | [] => []
  | [x] => x
  | x :: rest => x ++ sep :: joinWith sep rest

/-- `os.path.dirname` for normalized `/`-paths. -/
def dirnameStr (p : String) : String :=
  (joinWith '/' (splitOnChar '/' p.toList).dropLast).asString

/-- `os.path.basename` for normalized `/`-paths. -/
def basenameStr (p : String) : String :=
  ((splitOnChar '/' p.toList).getLastD []).asString

/-- `path.split('.')[-1]`. -/
def lastExt (p : String) : String :=
  ((splitOnChar '.' p.toList).getLastD []).asString

/-- `filename.split('.')[0]`. -/
def firstDotComponent (s : String) : String :=
  ((splitOnChar '.' s.toList).headD []).asString

/-- Python `set.add` into a node's `children`, comparing the fresh object
against the existing children by value. -/
def addChildSet (st : Arena) (parentId : Nat) (t : Tree) : Arena :=
  let parent := st.get parentId
  if (parent.children.map (fun c => st.get c)).contains t then st
  else
    let newId := st.nodes.length
    let st1 : Arena := ⟨st.nodes ++ [t]⟩
    st1.set parentId { st1.get parentId with children := parent.children ++ [newId] }

/-- The `for file in files` loop of `stub_add_compiled_file`: attach each
sibling as a child of `self.parent`.  `none` models the `AttributeError`
when `self.parent` is `None`. -/
def stub_attach_files (ld_dir : String) (i : Nat) :
    Option Arena → List String → Option Arena
  | none, _ => none
  | some st, [] => some st
  | some st, file :: rest =>
    match (st.get i).parent with
    | none => none
    | some parentId =>
      stub_attach_files ld_dir i
        (some (addChildSet st parentId
          { depth := (st.get i).depth, name := (st.get i).name,
            path := some (ld_dir ++ "/" ++ file), parent := some parentId }))
        rest

/-- The per-node body of `stub_add_compiled_file` (the loop over
`all_paths`); `listdir` is the directory-listing oracle. -/
def stub_add_node (st : Arena) (i : Nat) (listdir : String → List String) :
    Option Arena :=
  let node := st.get i
  let all_paths := node.probable_paths ++
    (match node.path with
    | some p => if p = "" then [] else [p]
    | none => [])
  all_paths.foldl (fun acc path =>
    match acc with
    | none => none
    | some st2 =>
      if lastExt path = "pyi" then
        let dn := dirnameStr path
        let filename := basenameStr path
        let files := (listdir dn).filter (fun f =>
          (firstDotComponent filename).toList.isPrefixOf f.toList && f ≠ filename)
        stub_attach_files dn i
          (some (st2.set i { st2.get i with is_stub := true })) files
      else some st2) (some st)

/-- The body of the `for path in all_paths` loop of
`stub_add_compiled_file`, as a named function (definitionally the step
folded by `stub_add_node`). -/
def stub_step (i : Nat) (listdir : String → List String)
    (acc : Option Arena) (path : String) : Option Arena :=
  match acc with
  | none => none
  | some st2 =>
    if lastExt path = "pyi" then
      stub_attach_files (dirnameStr path) i
        (some (st2.set i { st2.get i with is_stub := true }))
        ((listdir (dirnameStr path)).filter (fun f =>
          (firstDotComponent (basenameStr path)).toList.isPrefixOf f.toList &&
            f ≠ basenameStr path))
    else some st2

mutual
/-- `stub_add_compiled_file`: the per-node body followed by the recursion
over the node's children (fuel-bounded). -/
def stub_add_compiled_file : Nat → Arena → Nat → (String → List String) → Option Arena
  | 0, _, _, _ => none
  | fuel + 1, st, i, listdir =>
    match stub_add_node st i listdir with
    | none => none
    | some st1 => stub_add_children fuel st1 ((st1.get i).children) listdir
def stub_add_children : Nat → Arena → List Nat → (String → List String) → Option Arena
  | 0, _, _, _ => none
  | _ + 1, st, [], _ => some st
  | fuel + 1, st, c :: rest, listdir =>
    match stub_add_compiled_file fuel st c listdir with
    | none => none
    | some st' => stub_add_children fuel st' rest listdir
end

/-! ## The import normalizer (`comment_removed_imports_inits.py`)

`ast.parse` is an oracle: the statements of `tree.body` that are
`ast.Import`/`ast.ImportFrom` arrive as `PyImport` values (in body
order), and `split_imports` translates only the repository's rewrite
logic.  The filesystem seen by `single_import_per_line` and
`restore_init_files_to_initial` is a flat name-to-content map of one
directory with Python's overwrite-or-create `write_text` semantics. -/
structure PyAlias where
  name : String
  asname : Option String
  deriving DecidableEq

inductive PyImport where
  | importFrom (level : Nat) (module : Option String) (names : List PyAlias)
      (lineno end_lineno : Nat)
  | importPlain (names : List PyAlias) (lineno end_lineno : Nat)
  deriving DecidableEq

/-- `'.' * node.level`. -/
def dotsOf (level : Nat) : String := String.mk (List.replicate level '.')

/-- `f"from {full_module} import {name}"`. -/
def renderFrom (level : Nat) (module : Option String) (a : PyAlias) : String :=
  "from " ++ dotsOf level ++ (match module with | some mo => mo | none => "") ++
    " import " ++ a.name

/-- `f"import {alias.name}"`. -/
def renderPlain (a : PyAlias) : String := "import " ++ a.name

/-- The `import_lines` dict: line number to either a list of replacement
statements or `None` (a continuation line to drop). -/
abbrev ImportLines := List (Nat × Option (List String))

def lookupIL : ImportLines → Nat → Option (Option (List String))
  | [], _ => none
  | (k, v) :: rest, x => if k = x then some v else lookupIL rest x

def setIL : ImportLines → Nat → Option (List String) → ImportLines
  | [], x, v => [(x, v)]
  | (k, w) :: rest, x, v =>
    if k = x then (k, v) :: rest else (k, w) :: setIL rest x v

/-- `for line_num in range(node.lineno + 1, node.end_lineno + 1):
import_lines[line_num] = None`. -/
def contNones (m : ImportLines) (start cnt : Nat) : ImportLines :=
  (List.range' start cnt).foldl (fun m2 j => setIL m2 j none) m

/-- One statement's contribution to `import_lines`. -/
def stmtLines (m : ImportLines) (s : PyImport) : ImportLines :=
  match s with
  | .importFrom level module names lineno endl =>
    let m1 := setIL m lineno (some (names.map (renderFrom level module)))
    if endl ≠ 0 then contNones m1 (lineno + 1) (endl + 1 - (lineno + 1)) else m1
  | .importPlain names lineno endl =>
    let m1 := setIL m lineno (some (names.map renderPlain))
    if endl ≠ 0 then contNones m1 (lineno + 1) (endl + 1 - (lineno + 1)) else m1

def buildImportLines (stmts : List PyImport) : ImportLines :=
  stmts.foldl stmtLines []

/-- The output loop of `split_imports`: `for i, line in
enumerate(lines, 1)`. -/
def assembleLines (im : ImportLines) : Nat → List String → List String
  | _, [] => []
  | i, line :: rest =>
    match lookupIL im i with
    | some (some news) => news ++ assembleLines im (i + 1) rest
    | some none => assembleLines im (i + 1) rest
    | none => line :: assembleLines im (i + 1) rest

/-- `code.split('\n')`. -/
def splitLines (code : String) : List String :=
  (splitOnChar '\n' code.toList).map List.asString

/-- `'\n'.join(result)`. -/
def joinLines (ls : List String) : String :=
  (joinWith '\n' (ls.map String.toList)).asString

/-- `split_imports(code)` of `comment_removed_imports_inits.py`, with the
parsed import statements supplied by the `ast` oracle. -/
def split_imports (stmts : List PyImport) (code : String) : String :=
  joinLines (assembleLines (buildImportLines stmts) 1 (splitLines code))

/-- A flat one-directory filesystem: file name to content. -/
abbrev PyFs := List (String × String)

/-- `Path(..).read_text()`; `none` is the `FileNotFoundError`. -/
def fsRead : PyFs → String → Option String
  | [], _ => none
  | (k, v) :: rest, x => if k = x then some v else fsRead rest x

/-- `Path(..).write_text(..)`: overwrite in place or create. -/
def fsWrite : PyFs → String → String → PyFs
  | [], x, v => [(x, v)]
  | (k, w) :: rest, x, v =>
    if k = x then (k, v) :: rest else (k, w) :: fsWrite rest x v

/-- The backup-name prefix `__INITIAL_`. -/
def initialTok : List Char := "__INITIAL_".toList

/-- `single_import_per_line(path)`: read the file, write the
`__INITIAL_`-prefixed backup, then rewrite the file with
`split_imports`. -/
def single_import_per_line (ast : String → List PyImport) (fs : PyFs)
    (path : String) : Option PyFs :=
  match fsRead fs path with
  | none => none
  | some original_text =>
    let backup_path := "__INITIAL_" ++ path
    let fs1 := fsWrite fs backup_path original_text
    let splited_text := split_imports (ast original_text) original_text
    some (fsWrite fs1 path splited_text)

/-- `restore_init_files_to_initial(folder_path)`: for every file whose
name carries `__INITIAL_`, write its content to the name with the first
`__INITIAL_` occurrence stripped. -/
def restore_init_files_to_initial (fs : PyFs) : PyFs :=
  fs.foldl (fun acc f =>
    if isInfixB initialTok f.1.toList then
      fsWrite acc (dropFirstOcc initialTok f.1.toList).asString f.2
    else acc) fs

/-! ## Analysis of `split_imports` -/
/-- The replacement statements of one import statement, one per name. -/
def stmtRenders : PyImport → List String
  | .importFrom level module names _ _ => names.map (renderFrom level module)
  | .importPlain names _ _ => names.map renderPlain

def stmtLineno : PyImport → Nat
  | .importFrom _ _ _ l _ => l
  | .importPlain _ l _ => l

def stmtEnd : PyImport → Nat
  | .importFrom _ _ _ _ e => e
  | .importPlain _ _ e => e

/-- The `ast` oracle of the backup-clobbering scenario: the original
one-line import parses to one two-name statement; the rewritten text
parses to nothing relevant. -/
def c7Ast (code : String) : List PyImport :=
  if code = "from x import a, b" then
    [.importFrom 0 (some "x") [⟨"a", none⟩, ⟨"b", none⟩] 1 1]
  else []

/-- The starting filesystem of the backup-clobbering scenario. -/
def c7Fs0 : PyFs := [("a.py", "from x import a, b")]

/-- Two consecutive normalizer runs on the same file. -/
def c7Run2 : Option PyFs :=
  (single_import_per_line c7Ast c7Fs0 "a.py").bind
    (fun fs1 => single_import_per_line c7Ast fs1 "a.py")

/-! ## Analysis of the graph builder: node identity per path -/
/-- Two references of one file, both resolving to the same file
`/lib/a.py`. -/
def c2Name1 : JediName :=
  ⟨"a", 1, "name", [⟨some "/lib/a.py", some "a", "module"⟩]⟩

def c2Name2 : JediName :=
  ⟨"b", 2, "name", [⟨some "/lib/a.py", some "b", "module"⟩]⟩

/-- A one-node arena: the root file being extracted. -/
def c2Arena : Arena := ⟨[{ path := some "/root.py" }]⟩

def c2Env : String → RefData := fun _ =>
  ⟨[c2Name1, c2Name2], [], fun _ => none⟩

/-- The rediscovery scenario: a root whose attached child already
carries `/lib/a.py`, and a reference resolving there again. -/
def c2WDef : JediDefinition := ⟨some "/lib/a.py", some "a", "module"⟩

def c2WName : JediName := ⟨"a", 1, "x", [c2WDef]⟩

def c2WArena : Arena :=
  ⟨[{ path := some "/r.py", children := [1] },
    { path := some "/lib/a.py", parent := some 0 }]⟩

/-- A one-node arena and a non-module-typed reference whose only
definition is module-typed but has no backing file. -/
def c8Arena : Arena := ⟨[{ path := some "/r.py" }]⟩

def c8Name : JediName := ⟨"os", 1, "statement", [⟨none, some "os", "module"⟩]⟩

/-- The two witness scenarios: an empty `goto`, and a pathless
definition on a module-typed reference. -/
def c8WEmpty : JediName := ⟨"missing", 3, "name", []⟩

def c8WDef : JediDefinition := ⟨none, none, "x"⟩

def c8WModule : JediName := ⟨"pkg", 2, "module", [c8WDef]⟩

/-- The sibling files the specification describes: same base name as the
stub, different extension.  (Translated from the spec's words, to compare
with the source's `startswith` filter.) -/
def claimed_stub_siblings (listdir : String → List String) (p : String) :
    List String :=
  (listdir (dirnameStr p)).filter (fun f =>
    firstDotComponent f = firstDotComponent (basenameStr p) &&
      f ≠ basenameStr p)

/-- A stub node `/d/foo.pyi` under a parent directory node, with a
directory listing that also holds `foobar.py`. -/
def c9Arena : Arena :=
  ⟨[{ path := some "/d" },
    { path := some "/d/foo.pyi", parent := some 0, depth := 1 }]⟩

def c9Ld : String → List String := fun _ => ["foo.pyi", "foobar.py"]

/-! ## Theorems -/

/-- `isInfixB` agrees with the propositional `List.IsInfix`. -/
theorem isInfixB_true_iff {p s : List Char} : isInfixB p s = true ↔ p <:+: s := by
  induction s with
  | nil =>
    simp only [isInfixB, isInfixB.go, List.isEmpty_iff, List.infix_nil]
  | cons c rest ih =>
    simp only [isInfixB, isInfixB.go, Bool.or_eq_true, List.isPrefixOf_iff_prefix] at *
    rw [ih, List.infix_cons_iff]

theorem isInfixB_eq_false_iff {p s : List Char} : isInfixB p s = false ↔ ¬ p <:+: s := by
  rw [← isInfixB_true_iff, Bool.not_eq_true, Bool.eq_false_iff, ne_eq, Bool.not_eq_true]

/-- A pattern that avoids a character `a` occurs in `x ++ a :: y` exactly
when it occurs in `x` or in `y`: occurrences cannot straddle the
separator.  This is the combinatorial heart of the analysis of
`'FILE' in str(arbo)`. -/
theorem infix_append_cons_iff {α : Type} {a : α} {p x y : List α} (ha : a ∉ p) :
    p <:+: x ++ a :: y ↔ p <:+: x ∨ p <:+: y := by
  constructor
  · rintro ⟨s, t, hst⟩
    rcases Nat.lt_or_ge x.length s.length with hx | hx
    · right
      have hdrop := congrArg (List.drop (x.length + 1)) hst
      have h0 : x.length + 1 - s.length = 0 := by omega
      have h0' : x.length + 1 - (s ++ p).length = 0 := by
        simp only [List.length_append]; omega
      have hd2 : List.drop (x.length + 1) (x ++ a :: y) = y := by
        rw [List.drop_append_eq_append_drop, List.drop_of_length_le (by omega)]
        have h1 : x.length + 1 - x.length = 1 := by omega
        rw [h1]
        simp
      rw [List.drop_append_eq_append_drop, List.drop_append_eq_append_drop,
        h0, h0', List.drop_zero, List.drop_zero, hd2] at hdrop
      exact ⟨List.drop (x.length + 1) s, t, hdrop⟩
    · rcases Nat.lt_or_ge x.length (s.length + p.length) with hmid | hge
      · -- the occurrence would have to contain the separator: contradiction
        exfalso
        apply ha
        have hxlt : x.length < (s ++ p ++ t).length := by
          have hlen := congrArg List.length hst
          simp only [List.length_append, List.length_cons] at hlen ⊢
          omega
        have hxp : x.length - s.length < p.length := by omega
        have h1 : (s ++ p ++ t)[x.length] = a := by
          simp only [hst]
          rw [List.getElem_append_right (Nat.le_refl x.length)]
          simp
        have hsp : x.length < (s ++ p).length := by
          simp only [List.length_append]; omega
        have h2 : (s ++ p ++ t)[x.length] = p[x.length - s.length] := by
          rw [List.getElem_append_left hsp, List.getElem_append_right hx]
        have hmem : p[x.length - s.length] = a := by rw [← h2]; exact h1
        exact hmem ▸ List.getElem_mem _
      · left
        have htake := congrArg (List.take x.length) hst
        have hd2 : List.take x.length (x ++ a :: y) = x := List.take_left x (a :: y)
        rw [hd2, List.take_append_eq_append_take, List.take_append_eq_append_take,
          List.take_of_length_le (α := α) (l := s) (by omega),
          List.take_of_length_le (α := α) (l := p) (by omega)]
          at htake
        exact ⟨s, _, htake⟩
  · rintro (⟨s, t, hst⟩ | ⟨s, t, hst⟩)
    · exact ⟨s, t ++ a :: y, by rw [← hst]; simp⟩
    · exact ⟨x ++ a :: s, t, by rw [← hst]; simp [List.append_assoc]⟩

/-- Cons form of `infix_append_cons_iff` (separator at the head). -/
theorem infix_cons_sep_iff {α : Type} {a : α} {p y : List α} (ha : a ∉ p)
    (hp : p ≠ []) : p <:+: a :: y ↔ p <:+: y := by
  have h := infix_append_cons_iff (x := []) (y := y) ha
  simp only [List.nil_append] at h
  rw [h]
  simp [List.infix_nil, hp]

/-- Decomposition of a `'FILE'` occurrence in one rendered dict entry:
the separator characters `'`, `:`, space cannot take part in a match. -/
theorem infix_entry_iff (k : String) (rv : List Char) :
    fileTok <:+: renderEntry k rv ↔
      fileTok <:+: k.toList ∨ fileTok <:+: rv := by
  unfold renderEntry
  rw [infix_cons_sep_iff (by decide) (by decide),
    infix_append_cons_iff (by decide),
    infix_cons_sep_iff (by decide) (by decide),
    infix_cons_sep_iff (by decide) (by decide)]

mutual
/-- `'FILE' in str(arbo)` holds exactly when a key or string value of the
nested index contains `FILE`: a match cannot straddle the quotes, braces
and separators `str` inserts. -/
theorem renderIdx_hasFILE : ∀ k : Idx, isInfixB fileTok (renderIdx k) = idxHasFILE k
  | .leaf s => by
    rw [Bool.eq_iff_iff, isInfixB_true_iff]
    show fileTok <:+: '\'' :: (s.toList ++ ['\'']) ↔ _
    rw [infix_cons_sep_iff (by decide) (by decide),
      show s.toList ++ ['\''] = s.toList ++ '\'' :: [] from rfl,
      infix_append_cons_iff (by decide)]
    have h0 : ¬ (fileTok <:+: ([] : List Char)) := by
      rw [List.infix_nil]; decide
    simp only [h0, or_false, idxHasFILE, isInfixB_true_iff]
  | .node m => by
    rw [Bool.eq_iff_iff, isInfixB_true_iff]
    show fileTok <:+: '{' :: (renderMap m ++ ['}']) ↔ _
    rw [infix_cons_sep_iff (by decide) (by decide),
      show renderMap m ++ ['}'] = renderMap m ++ '}' :: [] from rfl,
      infix_append_cons_iff (by decide)]
    have h0 : ¬ (fileTok <:+: ([] : List Char)) := by
      rw [List.infix_nil]; decide
    have hm := renderMap_hasFILE m
    simp only [h0, or_false, idxHasFILE, ← hm, isInfixB_true_iff]
theorem renderMap_hasFILE : ∀ m : List (String × Idx),
    isInfixB fileTok (renderMap m) = mapHasFILE m
  | [] => rfl
  | [(k, v)] => by
    rw [Bool.eq_iff_iff, isInfixB_true_iff]
    show fileTok <:+: renderEntry k (renderIdx v) ↔ _
    rw [infix_entry_iff]
    have hv := renderIdx_hasFILE v
    simp only [mapHasFILE, Bool.or_eq_true, ← hv, isInfixB_true_iff,
      Bool.false_eq_true, or_false]
  | (k, v) :: (e :: rest) => by
    rw [Bool.eq_iff_iff, isInfixB_true_iff]
    show fileTok <:+:
      renderEntry k (renderIdx v) ++ ',' :: ' ' :: renderMap (e :: rest) ↔ _
    rw [infix_append_cons_iff (by decide),
      infix_cons_sep_iff (by decide) (by decide), infix_entry_iff]
    have hv := renderIdx_hasFILE v
    have hr := renderMap_hasFILE (e :: rest)
    have hstep : mapHasFILE ((k, v) :: e :: rest) =
        (isInfixB fileTok k.toList || (idxHasFILE v || mapHasFILE (e :: rest))) := by
      simp [mapHasFILE, Bool.or_assoc]
    rw [hstep]
    simp only [Bool.or_eq_true, ← hv, ← hr, isInfixB_true_iff, or_assoc]
end

/-- `has_file` agrees with its structural description. -/
theorem has_file_eq (k : Idx) : has_file k = idxHasFILE k :=
  renderIdx_hasFILE k

/-! ### Dict assignment lemmas -/
theorem lookupA_setA_self (m : IdxMap) (x : String) (v : Idx) :
    lookupA (setA m x v) x = some v := by
  induction m with
  | nil => simp [setA, lookupA]
  | cons e rest ih =>
    obtain ⟨k, w⟩ := e
    by_cases h : k = x <;> simp [setA, lookupA, h, ih]

theorem lookupA_setA_other (m : IdxMap) {x y : String} (h : x ≠ y) (v : Idx) :
    lookupA (setA m x v) y = lookupA m y := by
  induction m with
  | nil => simp [setA, lookupA, h]
  | cons e rest ih =>
    obtain ⟨k, w⟩ := e
    by_cases hk : k = x
    · subst hk
      simp [setA, lookupA, h, ih]
    · simp [setA, lookupA, hk, ih]

theorem setA_lookupA_self {m : IdxMap} {x : String} {v : Idx}
    (h : lookupA m x = some v) : setA m x v = m := by
  induction m with
  | nil => simp [lookupA] at h
  | cons e rest ih =>
    obtain ⟨k, w⟩ := e
    by_cases hk : k = x
    · subst hk
      simp [lookupA] at h
      simp [setA, h]
    · simp [lookupA, hk] at h
      simp [setA, hk, ih h]

/-- A Python-falsy index value (`''` or `{}`) contains no `FILE` token. -/
theorem idxHasFILE_of_falsy {v : Idx} (h : idxTruthy v = false) :
    idxHasFILE v = false := by
  cases v with
  | leaf s =>
    simp only [idxTruthy, Bool.not_eq_false'] at h
    have hs : s = "" := eq_of_beq h
    subst hs
    rfl
  | node m =>
    simp only [idxTruthy, Bool.not_eq_false', List.isEmpty_iff] at h
    subst h
    rfl

theorem lookupA_mapHasFILE_false {m : IdxMap} {x : String} {w : Idx}
    (hm : mapHasFILE m = false) (h : lookupA m x = some w) :
    idxHasFILE w = false := by
  induction m with
  | nil => simp [lookupA] at h
  | cons e rest ih =>
    obtain ⟨k, v⟩ := e
    simp only [mapHasFILE, Bool.or_eq_false_iff] at hm
    by_cases hk : k = x
    · simp [lookupA, hk] at h
      exact h ▸ hm.1.2
    · simp [lookupA, hk] at h
      exact ih hm.2 h

theorem mapHasFILE_setA_of_val {m : IdxMap} {x : String} {v : Idx}
    (hv : idxHasFILE v = true) : mapHasFILE (setA m x v) = true := by
  induction m with
  | nil => simp [setA, mapHasFILE, hv]
  | cons e rest ih =>
    obtain ⟨k, w⟩ := e
    by_cases hk : k = x <;> simp [setA, mapHasFILE, hk, hv, ih]

theorem mapHasFILE_setA_true {m : IdxMap} {x : String} {v : Idx}
    (hm : mapHasFILE m = true)
    (hold : ∀ w, lookupA m x = some w → idxHasFILE w = false) :
    mapHasFILE (setA m x v) = true := by
  induction m with
  | nil => simp [mapHasFILE] at hm
  | cons e rest ih =>
    obtain ⟨k, w⟩ := e
    by_cases hk : k = x
    · subst hk
      have hw : idxHasFILE w = false := hold w (by simp [lookupA])
      simp only [mapHasFILE, hw, Bool.or_eq_true, Bool.false_eq_true, false_or] at hm
      simp only [setA, if_pos rfl, mapHasFILE, Bool.or_eq_true]
      tauto
    · simp only [mapHasFILE, Bool.or_eq_true] at hm
      have hrec : mapHasFILE rest = true → mapHasFILE (setA rest x v) = true :=
        fun h => ih h (fun w' hw' => hold w' (by simp [lookupA, hk, hw']))
      simp only [setA, if_neg hk, mapHasFILE, Bool.or_eq_true]
      tauto

theorem mapHasFILE_setA_false {m : IdxMap} {x : String} {v : Idx}
    (hm : mapHasFILE m = false) (hv : idxHasFILE v = false)
    (hx : isInfixB fileTok x.toList = false) :
    mapHasFILE (setA m x v) = false := by
  induction m with
  | nil =>
    simp only [setA, mapHasFILE, Bool.or_eq_false_iff]
    exact ⟨⟨hx, hv⟩, trivial⟩
  | cons e rest ih =>
    obtain ⟨k, w⟩ := e
    simp only [mapHasFILE, Bool.or_eq_false_iff] at hm
    by_cases hk : k = x
    · simp only [setA, if_pos hk, mapHasFILE, Bool.or_eq_false_iff]
      exact ⟨⟨hm.1.1, hv⟩, hm.2⟩
    · simp only [setA, if_neg hk, mapHasFILE, Bool.or_eq_false_iff]
      exact ⟨hm.1, ih hm.2⟩

mutual
/-- A used leaf anywhere in the index makes `has_file` true. -/
theorem idxHasFILE_of_hasUsedLeaf : ∀ v : Idx, hasUsedLeaf v = true → idxHasFILE v = true
  | .leaf s, h => by
    simp only [hasUsedLeaf] at h
    have hs : s = "FILE" := eq_of_beq h
    subst hs
    rfl
  | .node m, h => mapHasFILE_of_mapHasUsedLeaf m h
theorem mapHasFILE_of_mapHasUsedLeaf :
    ∀ m : IdxMap, mapHasUsedLeaf m = true → mapHasFILE m = true
  | [], h => by simp [mapHasUsedLeaf] at h
  | (k, v) :: rest, h => by
    simp only [mapHasUsedLeaf, Bool.or_eq_true] at h
    rcases h with h | h
    · simp [mapHasFILE, idxHasFILE_of_hasUsedLeaf v h]
    · simp [mapHasFILE, mapHasFILE_of_mapHasUsedLeaf rest h]
end

/-! ## Marker and substring helper lemmas -/
theorem isInfixB_append_left {p s : List Char} (x : List Char)
    (h : isInfixB p s = true) : isInfixB p (x ++ s) = true := by
  rw [isInfixB_true_iff] at h ⊢
  obtain ⟨a, b, hab⟩ := h
  exact ⟨x ++ a, b, by rw [← hab]; simp⟩

theorem isInfixB_self_append (p x : List Char) : isInfixB p (p ++ x) = true := by
  rw [isInfixB_true_iff]
  exact ⟨[], x, by simp⟩

theorem toList_marker_append (el : String) :
    ("__DELETED_" ++ el).toList = markTok ++ el.toList := rfl

theorem containsMarker_marker_append (el : String) :
    containsMarker ("__DELETED_" ++ el) = true := by
  rw [containsMarker, toList_marker_append]
  exact isInfixB_self_append _ _

theorem dropFirstOcc_append (pat x : List Char) (hne : pat ≠ []) :
    dropFirstOcc pat (pat ++ x) = x := by
  cases pat with
  | nil => exact absurd rfl hne
  | cons c cs =>
    show dropFirstOcc (c :: cs) (c :: (cs ++ x)) = x
    rw [dropFirstOcc]
    have hpre : (c :: cs).isPrefixOf (c :: (cs ++ x)) = true := by
      rw [List.isPrefixOf_iff_prefix]
      exact ⟨x, by simp⟩
    rw [if_pos hpre]
    show List.drop (c :: cs).length ((c :: cs) ++ x) = x
    exact List.drop_left _ _

theorem dropFirstOcc_no_occ {pat s : List Char}
    (h : isInfixB pat s = false) : dropFirstOcc pat s = s := by
  induction s with
  | nil => rfl
  | cons c rest ih =>
    simp only [isInfixB, isInfixB.go, Bool.or_eq_false_iff] at h
    rw [dropFirstOcc, if_neg (by rw [h.1]; exact Bool.false_ne_true)]
    have hrest : isInfixB pat rest = false := by
      simp only [isInfixB, isInfixB.go]
      exact h.2
    rw [ih hrest]

/-- The re-add step leaves a file whose name is marker-free unchanged,
whatever its directory prefix is: stripping the marker from such a name is
the identity. -/
theorem cleanName_restore {el : String} (h : containsMarker el = false)
    (pre : List Char) :
    (if isInfixB markTok (pre ++ el.toList) then
        (dropFirstOcc markTok el.toList).asString
      else el) = el := by
  by_cases hp : isInfixB markTok (pre ++ el.toList) = true
  · rw [if_pos hp, dropFirstOcc_no_occ h, String.asString_toList]
  · rw [if_neg hp]

/-- A marker-prefixed file name is restored to the unprefixed name. -/
theorem markerName_restore (el : String) (pre : List Char) :
    (if isInfixB markTok (pre ++ ("__DELETED_" ++ el).toList) then
        (dropFirstOcc markTok ("__DELETED_" ++ el).toList).asString
      else "__DELETED_" ++ el) = el := by
  rw [toList_marker_append,
    if_pos (isInfixB_append_left pre (isInfixB_self_append _ _)),
    dropFirstOcc_append _ _ (by decide), String.asString_toList]

/-! ## Structure lemmas for the pruner -/
/-- If the index is a string, a successful pass can only have skipped every
entry: nothing is renamed and the index is returned unchanged. -/
theorem prune_leaf {f : Nat} {es es' : List (String × FSTree)} {s : String} {k' : Idx}
    (h : virtual_remove_unused_files f es (.leaf s) = some (es', k')) :
    es' = es ∧ k' = .leaf s := by
  induction f generalizing es es' k' with
  | zero => simp [virtual_remove_unused_files] at h
  | succ f ih =>
    cases es with
    | nil =>
      simp only [virtual_remove_unused_files, Option.some.injEq, Prod.mk.injEq] at h
      exact ⟨h.1.symm, h.2.symm⟩
    | cons e rest =>
      obtain ⟨el, sub⟩ := e
      simp only [virtual_remove_unused_files] at h
      by_cases hc : ((el == "__init__.py" && has_file (.leaf s)) || containsMarker el) = true
      · rw [if_pos hc] at h
        cases hr : virtual_remove_unused_files f rest (.leaf s) with
        | none => rw [hr] at h; exact Option.noConfusion h
        | some pr =>
          obtain ⟨rest', k2⟩ := pr
          rw [hr] at h
          obtain ⟨hes, hk⟩ := ih hr
          simp only [Option.some.injEq, Prod.mk.injEq] at h
          exact ⟨by rw [← h.1, hes], by rw [← h.2, hk]⟩
      · rw [if_neg hc] at h
        cases sub with
        | dir d => exact Option.noConfusion h
        | file c => exact Option.noConfusion h

/-- A pass whose index is a dict returns a dict, and only entry names of
the processed directory can have their top-level index values changed
(the frame property of the in-place mutation). -/
theorem prune_frame {f : Nat} {es es' : List (String × FSTree)} {m : IdxMap} {k' : Idx}
    (h : virtual_remove_unused_files f es (.node m) = some (es', k')) :
    ∃ m', k' = .node m' ∧
      ∀ x, hasEntryName x es = false → lookupA m' x = lookupA m x := by
  induction f generalizing es es' m k' with
  | zero => simp [virtual_remove_unused_files] at h
  | succ f ih =>
    cases es with
    | nil =>
      simp only [virtual_remove_unused_files, Option.some.injEq, Prod.mk.injEq] at h
      exact ⟨m, h.2.symm, fun x _ => rfl⟩
    | cons e rest =>
      obtain ⟨el, sub⟩ := e
      cases sub with
      | dir d =>
        simp only [virtual_remove_unused_files] at h
        split at h
        · split at h
          · next rest' k2 heq =>
            simp only [Option.some.injEq, Prod.mk.injEq] at h
            obtain ⟨m', hm', hf⟩ := ih heq
            exact ⟨m', by rw [← h.2, hm'], fun x hx => by
              simp only [hasEntryName, Bool.or_eq_false_iff] at hx
              exact hf x hx.2⟩
          · exact Option.noConfusion h
        · split at h
          · exact Option.noConfusion h
          · next d' ksub heq =>
            split at h
            · next rest' k2 heq2 =>
              simp only [Option.some.injEq, Prod.mk.injEq] at h
              obtain ⟨m', hm', hf⟩ := ih heq2
              refine ⟨m', by rw [← h.2, hm'], fun x hx => ?_⟩
              simp only [hasEntryName, Bool.or_eq_false_iff] at hx
              have hxel : el ≠ x := ne_of_beq_false hx.1
              rw [hf x hx.2, lookupA_setA_other _ hxel]
              by_cases ht : optTruthy (lookupA m el) = true
              · rw [if_pos ht]
              · rw [if_neg ht, lookupA_setA_other _ hxel]
            · exact Option.noConfusion h
      | file c =>
        simp only [virtual_remove_unused_files] at h
        split at h
        · split at h
          · next rest' k2 heq =>
            simp only [Option.some.injEq, Prod.mk.injEq] at h
            obtain ⟨m', hm', hf⟩ := ih heq
            exact ⟨m', by rw [← h.2, hm'], fun x hx => by
              simp only [hasEntryName, Bool.or_eq_false_iff] at hx
              exact hf x hx.2⟩
          · exact Option.noConfusion h
        · split at h
          · split at h
            · next rest' k2 heq =>
              simp only [Option.some.injEq, Prod.mk.injEq] at h
              obtain ⟨m', hm', hf⟩ := ih heq
              exact ⟨m', by rw [← h.2, hm'], fun x hx => by
                simp only [hasEntryName, Bool.or_eq_false_iff] at hx
                exact hf x hx.2⟩
            · exact Option.noConfusion h
          · split at h
            · next rest' k2 heq =>
              simp only [Option.some.injEq, Prod.mk.injEq] at h
              obtain ⟨m', hm', hf⟩ := ih heq
              refine ⟨m', by rw [← h.2, hm'], fun x hx => ?_⟩
              simp only [hasEntryName, Bool.or_eq_false_iff] at hx
              rw [hf x hx.2, lookupA_setA_other _ (ne_of_beq_false hx.1)]
            · exact Option.noConfusion h

/-- A falsy `get` result has no `FILE`-containing value. -/
theorem optTruthy_false_hasFILE {m : IdxMap} {el : String}
    (h : optTruthy (lookupA m el) = false) :
    ∀ w, lookupA m el = some w → idxHasFILE w = false := by
  intro w hw
  rw [hw] at h
  exact idxHasFILE_of_falsy h

/-- The pruning pass never removes a `FILE` occurrence from the index:
every write either inserts `{}`/`'DELETED'` over a falsy value or writes
back a recursively pruned sub-index. -/
theorem prune_hasFILE_mono {f : Nat} {es es' : List (String × FSTree)} {k k' : Idx}
    (h : virtual_remove_unused_files f es k = some (es', k'))
    (hk : idxHasFILE k = true) : idxHasFILE k' = true := by
  induction f generalizing es es' k k' with
  | zero => simp [virtual_remove_unused_files] at h
  | succ f ih =>
    cases k with
    | leaf s =>
      obtain ⟨-, rfl⟩ := prune_leaf h
      exact hk
    | node m =>
      cases es with
      | nil =>
        simp only [virtual_remove_unused_files, Option.some.injEq, Prod.mk.injEq] at h
        rw [← h.2]
        exact hk
      | cons e rest =>
        obtain ⟨el, sub⟩ := e
        cases sub with
        | dir d =>
          simp only [virtual_remove_unused_files] at h
          split at h
          · split at h
            · next rest' k2 heq =>
              simp only [Option.some.injEq, Prod.mk.injEq] at h
              rw [← h.2]
              exact ih heq hk
            · exact Option.noConfusion h
          · split at h
            · exact Option.noConfusion h
            · next d' ksub heq =>
              split at h
              · next rest' k2 heq2 =>
                simp only [Option.some.injEq, Prod.mk.injEq] at h
                rw [← h.2]
                refine ih heq2 ?_
                -- the written-back dict still contains a FILE token
                set m1 := if optTruthy (lookupA m el) then m else setA m el (.node [])
                  with hm1
                have hm1FILE : mapHasFILE m1 = true := by
                  rw [hm1]
                  by_cases ht : optTruthy (lookupA m el) = true
                  · rw [if_pos ht]; exact hk
                  · rw [if_neg ht]
                    exact mapHasFILE_setA_true hk
                      (optTruthy_false_hasFILE (Bool.eq_false_iff.2 ht))
                by_cases hsub : idxHasFILE ((lookupA m1 el).getD (.node [])) = true
                · have hksub : idxHasFILE ksub = true := ih heq hsub
                  exact mapHasFILE_setA_of_val hksub
                · refine mapHasFILE_setA_true hm1FILE ?_
                  intro w hw
                  rw [hw] at hsub
                  exact Bool.eq_false_iff.2 hsub
              · exact Option.noConfusion h
        | file c =>
          simp only [virtual_remove_unused_files] at h
          split at h
          · split at h
            · next rest' k2 heq =>
              simp only [Option.some.injEq, Prod.mk.injEq] at h
              rw [← h.2]
              exact ih heq hk
            · exact Option.noConfusion h
          · split at h
            · split at h
              · next rest' k2 heq =>
                simp only [Option.some.injEq, Prod.mk.injEq] at h
                rw [← h.2]
                exact ih heq hk
              · exact Option.noConfusion h
            · next ht =>
              split at h
              · next rest' k2 heq =>
                simp only [Option.some.injEq, Prod.mk.injEq] at h
                rw [← h.2]
                refine ih heq ?_
                exact mapHasFILE_setA_true hk
                  (optTruthy_false_hasFILE (Bool.eq_false_iff.2 ht))
              · exact Option.noConfusion h

/-- Conversely, if the index has no `FILE` token and no entry name below
the directory contains `FILE`, the pass cannot introduce one: it only
ever writes entry names, `{}` and `'DELETED'`. -/
theorem prune_hasFILE_antimono {f : Nat} {es es' : List (String × FSTree)} {k k' : Idx}
    (h : virtual_remove_unused_files f es k = some (es', k'))
    (hk : idxHasFILE k = false) (hn : namesFILEfreeE es = true) :
    idxHasFILE k' = false := by
  induction f generalizing es es' k k' with
  | zero => simp [virtual_remove_unused_files] at h
  | succ f ih =>
    cases k with
    | leaf s =>
      obtain ⟨-, rfl⟩ := prune_leaf h
      exact hk
    | node m =>
      cases es with
      | nil =>
        simp only [virtual_remove_unused_files, Option.some.injEq, Prod.mk.injEq] at h
        rw [← h.2]
        exact hk
      | cons e rest =>
        obtain ⟨el, sub⟩ := e
        simp only [namesFILEfreeE, Bool.and_eq_true] at hn
        obtain ⟨⟨hel, hsubn⟩, hrestn⟩ := hn
        rw [Bool.not_eq_true'] at hel
        cases sub with
        | dir d =>
          simp only [virtual_remove_unused_files] at h
          split at h
          · split at h
            · next rest' k2 heq =>
              simp only [Option.some.injEq, Prod.mk.injEq] at h
              rw [← h.2]
              exact ih heq hk hrestn
            · exact Option.noConfusion h
          · split at h
            · exact Option.noConfusion h
            · next d' ksub heq =>
              split at h
              · next rest' k2 heq2 =>
                simp only [Option.some.injEq, Prod.mk.injEq] at h
                rw [← h.2]
                refine ih heq2 ?_ hrestn
                set m1 := if optTruthy (lookupA m el) then m else setA m el (.node [])
                  with hm1
                have hm1FILE : mapHasFILE m1 = false := by
                  rw [hm1]
                  by_cases ht : optTruthy (lookupA m el) = true
                  · rw [if_pos ht]; exact hk
                  · rw [if_neg ht]
                    exact mapHasFILE_setA_false hk rfl hel
                have hsubk : idxHasFILE ((lookupA m1 el).getD (.node [])) = false := by
                  cases hl : lookupA m1 el with
                  | none => rfl
                  | some w =>
                    simpa using lookupA_mapHasFILE_false hm1FILE hl
                have hksub : idxHasFILE ksub = false := by
                  refine ih heq hsubk ?_
                  simpa [namesFILEfreeT] using hsubn
                exact mapHasFILE_setA_false hm1FILE hksub hel
              · exact Option.noConfusion h
        | file c =>
          simp only [virtual_remove_unused_files] at h
          split at h
          · split at h
            · next rest' k2 heq =>
              simp only [Option.some.injEq, Prod.mk.injEq] at h
              rw [← h.2]
              exact ih heq hk hrestn
            · exact Option.noConfusion h
          · split at h
            · split at h
              · next rest' k2 heq =>
                simp only [Option.some.injEq, Prod.mk.injEq] at h
                rw [← h.2]
                exact ih heq hk hrestn
              · exact Option.noConfusion h
            · split at h
              · next rest' k2 heq =>
                simp only [Option.some.injEq, Prod.mk.injEq] at h
                rw [← h.2]
                refine ih heq ?_ hrestn
                exact mapHasFILE_setA_false hk (by decide) hel
              · exact Option.noConfusion h

/-! ## Round-trip: prune then restore -/
/-- Restoring a tree none of whose entry names carry the marker leaves it
unchanged (renaming strips nothing from a clean basename). -/
theorem reAdd_clean {g : Nat} {pre : List Char} {es r : List (String × FSTree)}
    (hm : noMarkersE es = true)
    (hr : re_add_virtualy_removed_files g pre es = some r) : r = es := by
  induction g generalizing es r pre with
  | zero => simp [re_add_virtualy_removed_files] at hr
  | succ g ih =>
    cases es with
    | nil =>
      simp only [re_add_virtualy_removed_files, Option.some.injEq] at hr
      exact hr.symm
    | cons e rest =>
      obtain ⟨el, sub⟩ := e
      simp only [noMarkersE, Bool.and_eq_true, Bool.not_eq_true'] at hm
      obtain ⟨⟨hel, hsub⟩, hrest⟩ := hm
      cases sub with
      | file c =>
        simp only [re_add_virtualy_removed_files] at hr
        split at hr
        · next rest' heq =>
          simp only [Option.some.injEq] at hr
          rw [← hr, cleanName_restore hel, ih hrest heq]
        · exact Option.noConfusion hr
      | dir d =>
        simp only [re_add_virtualy_removed_files] at hr
        split at hr
        · exact Option.noConfusion hr
        · next d' heq =>
          split at hr
          · next rest' heq2 =>
            simp only [Option.some.injEq] at hr
            rw [← hr, ih (by simpa [noMarkersT] using hsub) heq, ih hrest heq2]
          · exact Option.noConfusion hr

/-- Pruning a marker-free tree and then running the restorer reproduces the
original tree exactly. -/
theorem prune_restore_roundtrip {f g : Nat} {pre : List Char}
    {es es' r : List (String × FSTree)} {k k' : Idx}
    (hm : noMarkersE es = true)
    (h : virtual_remove_unused_files f es k = some (es', k'))
    (hr : re_add_virtualy_removed_files g pre es' = some r) : r = es := by
  induction f generalizing es es' k k' r g pre with
  | zero => simp [virtual_remove_unused_files] at h
  | succ f ih =>
    cases k with
    | leaf s =>
      obtain ⟨rfl, -⟩ := prune_leaf h
      exact reAdd_clean hm hr
    | node m =>
      cases es with
      | nil =>
        simp only [virtual_remove_unused_files, Option.some.injEq, Prod.mk.injEq] at h
        rw [← h.1] at hr
        cases g with
        | zero => simp [re_add_virtualy_removed_files] at hr
        | succ g =>
          simp only [re_add_virtualy_removed_files, Option.some.injEq] at hr
          exact hr.symm
      | cons e rest =>
        obtain ⟨el, sub⟩ := e
        simp only [noMarkersE, Bool.and_eq_true, Bool.not_eq_true'] at hm
        obtain ⟨⟨hel, hsubm⟩, hrestm⟩ := hm
        cases sub with
        | dir d =>
          simp only [virtual_remove_unused_files] at h
          split at h
          · -- skipped directory entry
            split at h
            · next rest1 k2 heq =>
              simp only [Option.some.injEq, Prod.mk.injEq] at h
              rw [← h.1] at hr
              cases g with
              | zero => simp [re_add_virtualy_removed_files] at hr
              | succ g =>
                simp only [re_add_virtualy_removed_files] at hr
                split at hr
                · exact Option.noConfusion hr
                · next d'' heq3 =>
                  split at hr
                  · next rest'' heq4 =>
                    simp only [Option.some.injEq] at hr
                    rw [← hr, reAdd_clean (by simpa [noMarkersT] using hsubm) heq3,
                      ih hrestm heq heq4]
                  · exact Option.noConfusion hr
            · exact Option.noConfusion h
          · split at h
            · exact Option.noConfusion h
            · next d' ksub heq =>
              split at h
              · next rest1 k2 heq2 =>
                simp only [Option.some.injEq, Prod.mk.injEq] at h
                rw [← h.1] at hr
                cases g with
                | zero => simp [re_add_virtualy_removed_files] at hr
                | succ g =>
                  simp only [re_add_virtualy_removed_files] at hr
                  split at hr
                  · exact Option.noConfusion hr
                  · next d'' heq3 =>
                    split at hr
                    · next rest'' heq4 =>
                      simp only [Option.some.injEq] at hr
                      rw [← hr, ih (by simpa [noMarkersT] using hsubm) heq heq3,
                        ih hrestm heq2 heq4]
                    · exact Option.noConfusion hr
              · exact Option.noConfusion h
        | file c =>
          simp only [virtual_remove_unused_files] at h
          split at h
          · -- skipped file entry
            split at h
            · next rest1 k2 heq =>
              simp only [Option.some.injEq, Prod.mk.injEq] at h
              rw [← h.1] at hr
              cases g with
              | zero => simp [re_add_virtualy_removed_files] at hr
              | succ g =>
                simp only [re_add_virtualy_removed_files] at hr
                split at hr
                · next rest'' heq3 =>
                  simp only [Option.some.injEq] at hr
                  rw [← hr, cleanName_restore hel, ih hrestm heq heq3]
                · exact Option.noConfusion hr
            · exact Option.noConfusion h
          · split at h
            · -- kept file
              split at h
              · next rest1 k2 heq =>
                simp only [Option.some.injEq, Prod.mk.injEq] at h
                rw [← h.1] at hr
                cases g with
                | zero => simp [re_add_virtualy_removed_files] at hr
                | succ g =>
                  simp only [re_add_virtualy_removed_files] at hr
                  split at hr
                  · next rest'' heq3 =>
                    simp only [Option.some.injEq] at hr
                    rw [← hr, cleanName_restore hel, ih hrestm heq heq3]
                  · exact Option.noConfusion hr
              · exact Option.noConfusion h
            · -- soft-deleted file: the marker copy is renamed back
              split at h
              · next rest1 k2 heq =>
                simp only [Option.some.injEq, Prod.mk.injEq] at h
                rw [← h.1] at hr
                cases g with
                | zero => simp [re_add_virtualy_removed_files] at hr
                | succ g =>
                  simp only [re_add_virtualy_removed_files] at hr
                  split at hr
                  · next rest'' heq3 =>
                    simp only [Option.some.injEq] at hr
                    rw [← hr, markerName_restore, ih hrestm heq heq3]
                  · exact Option.noConfusion hr
              · exact Option.noConfusion h

/-! ## Idempotence of the pruner -/
/-- The sub-index handed to the recursive call is truthy or `{}`. -/
theorem subk_shape (m : IdxMap) (el : String) :
    idxTruthy ((lookupA (if optTruthy (lookupA m el) then m
        else setA m el (.node [])) el).getD (.node [])) = true ∨
      (lookupA (if optTruthy (lookupA m el) then m
        else setA m el (.node [])) el).getD (.node []) = .node [] := by
  by_cases ht : optTruthy (lookupA m el) = true
  · rw [if_pos ht]
    cases hl : lookupA m el with
    | none => rw [hl] at ht; exact absurd ht (by simp [optTruthy])
    | some w =>
      rw [hl] at ht
      left
      exact ht
  · rw [if_neg ht, lookupA_setA_self]
    right
    rfl

/-- A falsy index returned by a pass over a truthy-or-`{}` input is `{}`. -/
theorem prune_falsy_out {f : Nat} {d es' : List (String × FSTree)} {subk ksub : Idx}
    (heq : virtual_remove_unused_files f d subk = some (es', ksub))
    (hsubk : idxTruthy subk = true ∨ subk = .node [])
    (hks : idxTruthy ksub = false) : ksub = .node [] := by
  cases subk with
  | leaf s =>
    obtain ⟨-, rfl⟩ := prune_leaf heq
    rcases hsubk with h | h
    · rw [h] at hks; exact absurd hks (by simp)
    · exact absurd h (by simp)
  | node ms =>
    obtain ⟨m', rfl, -⟩ := prune_frame heq
    simp only [idxTruthy, Bool.not_eq_false', List.isEmpty_iff] at hks
    rw [hks]

/-- Running the prune pass a second time over its own output changes
neither the file set nor the index: already-deleted entries carry the
marker and are skipped, kept entries are still truthy, and the `FILE`
monotonicity keeps every `__init__.py` skip decision stable. -/
theorem prune_idempotent {f g : Nat} {es es1 es2 : List (String × FSTree)}
    {k k1 k2 : Idx}
    (hd : distinctNamesE es = true)
    (h1 : virtual_remove_unused_files f es k = some (es1, k1))
    (h2 : virtual_remove_unused_files g es1 k1 = some (es2, k2)) :
    es2 = es1 ∧ k2 = k1 := by
  induction f generalizing es es1 es2 k k1 k2 g with
  | zero => simp [virtual_remove_unused_files] at h1
  | succ f ih =>
    cases k with
    | leaf s =>
      obtain ⟨rfl, rfl⟩ := prune_leaf h1
      exact prune_leaf h2
    | node m =>
      cases es with
      | nil =>
        simp only [virtual_remove_unused_files, Option.some.injEq, Prod.mk.injEq] at h1
        obtain ⟨h1a, h1b⟩ := h1
        rw [← h1a, ← h1b] at h2
        cases g with
        | zero => simp [virtual_remove_unused_files] at h2
        | succ g =>
          simp only [virtual_remove_unused_files, Option.some.injEq, Prod.mk.injEq] at h2
          exact ⟨h2.1.symm.trans h1a, h2.2.symm.trans h1b⟩
      | cons e rest =>
        obtain ⟨el, sub⟩ := e
        simp only [distinctNamesE, Bool.and_eq_true, Bool.not_eq_true'] at hd
        obtain ⟨⟨hne, hsubd⟩, hrestd⟩ := hd
        cases sub with
        | dir d =>
          simp only [virtual_remove_unused_files] at h1
          split at h1
          · -- run 1 skipped the entry
            next hcond1 =>
            split at h1
            · next rest1 k1' heq =>
              simp only [Option.some.injEq, Prod.mk.injEq] at h1
              obtain ⟨h1a, h1b⟩ := h1
              rw [← h1a, ← h1b] at h2
              have hcond2 :
                  ((el == "__init__.py" && has_file k1') || containsMarker el) = true := by
                simp only [Bool.or_eq_true, Bool.and_eq_true] at hcond1 ⊢
                rcases hcond1 with ⟨hinit, hhf⟩ | hmk
                · exact Or.inl ⟨hinit, by
                    rw [has_file_eq] at hhf ⊢
                    exact prune_hasFILE_mono heq hhf⟩
                · exact Or.inr hmk
              cases g with
              | zero => simp [virtual_remove_unused_files] at h2
              | succ g =>
                simp only [virtual_remove_unused_files, if_pos hcond2] at h2
                cases hrun2 : virtual_remove_unused_files g rest1 k1' with
                | none => rw [hrun2] at h2; exact Option.noConfusion h2
                | some pr =>
                  obtain ⟨rest2, k2'⟩ := pr
                  rw [hrun2] at h2
                  simp only [Option.some.injEq, Prod.mk.injEq] at h2
                  obtain ⟨hr2, hk2⟩ := ih hrestd heq hrun2
                  rw [← h2.1, ← h2.2, hr2, hk2, h1a, h1b]
                  exact ⟨rfl, rfl⟩
            · exact Option.noConfusion h1
          · -- run 1 recursed into the directory
            next hcond1 =>
            split at h1
            · exact Option.noConfusion h1
            · next d' ksub heq =>
              split at h1
              · next rest1 k1' heq2 =>
                simp only [Option.some.injEq, Prod.mk.injEq] at h1
                obtain ⟨h1a, h1b⟩ := h1
                rw [← h1a, ← h1b] at h2
                obtain ⟨m1', hk1', hframe⟩ := prune_frame heq2
                have hlk : lookupA m1' el = some ksub := by
                  rw [hframe el hne, lookupA_setA_self]
                -- run 2 on `(el, dir d') :: rest1` with index `k1'`
                cases g with
                | zero => simp [virtual_remove_unused_files] at h2
                | succ g =>
                  by_cases hcond2 :
                      ((el == "__init__.py" && has_file k1') || containsMarker el) = true
                  · -- run 2 skips the directory: nothing below it changes
                    simp only [virtual_remove_unused_files, if_pos hcond2] at h2
                    cases hrun2 : virtual_remove_unused_files g rest1 k1' with
                    | none => rw [hrun2] at h2; exact Option.noConfusion h2
                    | some pr =>
                      obtain ⟨rest2, k2'⟩ := pr
                      rw [hrun2] at h2
                      simp only [Option.some.injEq, Prod.mk.injEq] at h2
                      obtain ⟨hr2, hk2⟩ := ih hrestd heq2 hrun2
                      rw [← h2.1, ← h2.2, hr2, hk2, h1a, h1b]
                      exact ⟨rfl, rfl⟩
                  · -- run 2 recurses again; the sub-index is already pruned
                    rw [hk1'] at h2
                    simp only [virtual_remove_unused_files] at h2
                    rw [if_neg (by rw [← hk1']; exact hcond2)] at h2
                    have hm1'' :
                        (if optTruthy (lookupA m1' el) then m1'
                          else setA m1' el (.node [])) = m1' := by
                      rw [hlk]
                      simp only [optTruthy]
                      by_cases ht : idxTruthy ksub = true
                      · rw [if_pos ht]
                      · have hnil : ksub = .node [] :=
                          prune_falsy_out heq (subk_shape m el)
                            (Bool.eq_false_iff.2 ht)
                        rw [if_neg ht]
                        exact setA_lookupA_self (hnil ▸ hlk)
                    rw [hm1'', hlk] at h2
                    simp only [Option.getD_some] at h2
                    -- h2 now recurses with exactly `ksub` below `el`
                    split at h2
                    · exact Option.noConfusion h2
                    · next d2 ksub2 hrun2a =>
                      obtain ⟨hd2, hksub2⟩ := ih
                        (by simpa [distinctNamesT] using hsubd) heq hrun2a
                      rw [hd2, hksub2, setA_lookupA_self hlk] at h2
                      split at h2
                      · next rest2 k2' hrun2b =>
                        simp only [Option.some.injEq, Prod.mk.injEq] at h2
                        obtain ⟨hr2, hk2⟩ := ih hrestd heq2
                          (by rw [hk1']; exact hrun2b)
                        rw [← h2.1, ← h2.2, hr2, hk2, h1a, h1b]
                        exact ⟨rfl, rfl⟩
                      · exact Option.noConfusion h2
              · exact Option.noConfusion h1
        | file c =>
          simp only [virtual_remove_unused_files] at h1
          split at h1
          · -- run 1 skipped the file
            next hcond1 =>
            split at h1
            · next rest1 k1' heq =>
              simp only [Option.some.injEq, Prod.mk.injEq] at h1
              obtain ⟨h1a, h1b⟩ := h1
              rw [← h1a, ← h1b] at h2
              have hcond2 :
                  ((el == "__init__.py" && has_file k1') || containsMarker el) = true := by
                simp only [Bool.or_eq_true, Bool.and_eq_true] at hcond1 ⊢
                rcases hcond1 with ⟨hinit, hhf⟩ | hmk
                · exact Or.inl ⟨hinit, by
                    rw [has_file_eq] at hhf ⊢
                    exact prune_hasFILE_mono heq hhf⟩
                · exact Or.inr hmk
              cases g with
              | zero => simp [virtual_remove_unused_files] at h2
              | succ g =>
                simp only [virtual_remove_unused_files, if_pos hcond2] at h2
                cases hrun2 : virtual_remove_unused_files g rest1 k1' with
                | none => rw [hrun2] at h2; exact Option.noConfusion h2
                | some pr =>
                  obtain ⟨rest2, k2'⟩ := pr
                  rw [hrun2] at h2
                  simp only [Option.some.injEq, Prod.mk.injEq] at h2
                  obtain ⟨hr2, hk2⟩ := ih hrestd heq hrun2
                  rw [← h2.1, ← h2.2, hr2, hk2, h1a, h1b]
                  exact ⟨rfl, rfl⟩
            · exact Option.noConfusion h1
          · next hcond1 =>
            split at h1
            · -- run 1 kept the file (truthy index entry)
              next htr =>
              split at h1
              · next rest1 k1' heq =>
                simp only [Option.some.injEq, Prod.mk.injEq] at h1
                obtain ⟨h1a, h1b⟩ := h1
                rw [← h1a, ← h1b] at h2
                obtain ⟨m1', hk1', hframe⟩ := prune_frame heq
                have hlk : lookupA m1' el = lookupA m el := hframe el hne
                cases g with
                | zero => simp [virtual_remove_unused_files] at h2
                | succ g =>
                  by_cases hcond2 :
                      ((el == "__init__.py" && has_file k1') || containsMarker el) = true
                  · simp only [virtual_remove_unused_files, if_pos hcond2] at h2
                    cases hrun2 : virtual_remove_unused_files g rest1 k1' with
                    | none => rw [hrun2] at h2; exact Option.noConfusion h2
                    | some pr =>
                      obtain ⟨rest2, k2'⟩ := pr
                      rw [hrun2] at h2
                      simp only [Option.some.injEq, Prod.mk.injEq] at h2
                      obtain ⟨hr2, hk2⟩ := ih hrestd heq hrun2
                      rw [← h2.1, ← h2.2, hr2, hk2, h1a, h1b]
                      exact ⟨rfl, rfl⟩
                  · rw [hk1'] at h2
                    simp only [virtual_remove_unused_files] at h2
                    rw [if_neg (by rw [← hk1']; exact hcond2),
                      if_pos (by rw [hlk]; exact htr)] at h2
                    cases hrun2 : virtual_remove_unused_files g rest1 (.node m1') with
                    | none => rw [hrun2] at h2; exact Option.noConfusion h2
                    | some pr =>
                      obtain ⟨rest2, k2'⟩ := pr
                      rw [hrun2] at h2
                      simp only [Option.some.injEq, Prod.mk.injEq] at h2
                      obtain ⟨hr2, hk2⟩ := ih hrestd heq (hk1' ▸ hrun2)
                      rw [← h2.1, ← h2.2, hr2, hk2, h1a, h1b]
                      exact ⟨rfl, rfl⟩
              · exact Option.noConfusion h1
            · -- run 1 soft-deleted the file: run 2 sees the marker copy
              next htr =>
              split at h1
              · next rest1 k1' heq =>
                simp only [Option.some.injEq, Prod.mk.injEq] at h1
                obtain ⟨h1a, h1b⟩ := h1
                rw [← h1a, ← h1b] at h2
                have hcond2 :
                    ((("__DELETED_" ++ el) == "__init__.py" && has_file k1') ||
                      containsMarker ("__DELETED_" ++ el)) = true := by
                  rw [containsMarker_marker_append]
                  simp
                cases g with
                | zero => simp [virtual_remove_unused_files] at h2
                | succ g =>
                  simp only [virtual_remove_unused_files, if_pos hcond2] at h2
                  cases hrun2 : virtual_remove_unused_files g rest1 k1' with
                  | none => rw [hrun2] at h2; exact Option.noConfusion h2
                  | some pr =>
                    obtain ⟨rest2, k2'⟩ := pr
                    rw [hrun2] at h2
                    simp only [Option.some.injEq, Prod.mk.injEq] at h2
                    obtain ⟨hr2, hk2⟩ := ih hrestd heq hrun2
                    rw [← h2.1, ← h2.2, hr2, hk2, h1a, h1b]
                    exact ⟨rfl, rfl⟩
              · exact Option.noConfusion h1

/-! ## The package-init keep policy -/
theorem hasEntryName_of_mem {x : String} {t : FSTree} {es : List (String × FSTree)}
    (h : (x, t) ∈ es) : hasEntryName x es = true := by
  induction es with
  | nil => cases h
  | cons e rest ih =>
    obtain ⟨el, sub⟩ := e
    rcases List.mem_cons.1 h with h | h
    · obtain ⟨h1, -⟩ := Prod.mk.injEq .. ▸ h
      simp [hasEntryName, (Prod.mk.injEq .. ▸ h : _ ∧ _).1]
    · simp [hasEntryName, ih h]

/-- After the directory step writes the pruned sub-index back, a `FILE`
token elsewhere in the dict is still there. -/
theorem dirstep_hasFILE {f : Nat} {d d' : List (String × FSTree)} {m : IdxMap}
    {el : String} {ksub : Idx}
    (heq : virtual_remove_unused_files f d
      ((lookupA (if optTruthy (lookupA m el) then m else setA m el (.node [])) el).getD
        (.node [])) = some (d', ksub))
    (hk : mapHasFILE m = true) :
    mapHasFILE (setA (if optTruthy (lookupA m el) then m
      else setA m el (.node [])) el ksub) = true := by
  set m1 := if optTruthy (lookupA m el) then m else setA m el (.node []) with hm1
  have hm1FILE : mapHasFILE m1 = true := by
    rw [hm1]
    by_cases ht : optTruthy (lookupA m el) = true
    · rw [if_pos ht]; exact hk
    · rw [if_neg ht]
      exact mapHasFILE_setA_true hk
        (optTruthy_false_hasFILE (Bool.eq_false_iff.2 ht))
  by_cases hsub : idxHasFILE ((lookupA m1 el).getD (.node [])) = true
  · exact mapHasFILE_setA_of_val (prune_hasFILE_mono heq hsub)
  · refine mapHasFILE_setA_true hm1FILE ?_
    intro w hw
    rw [hw] at hsub
    exact Bool.eq_false_iff.2 hsub

/-- The `FILE`-free counterpart of `dirstep_hasFILE`. -/
theorem dirstep_noFILE {f : Nat} {d d' : List (String × FSTree)} {m : IdxMap}
    {el : String} {ksub : Idx}
    (heq : virtual_remove_unused_files f d
      ((lookupA (if optTruthy (lookupA m el) then m else setA m el (.node [])) el).getD
        (.node [])) = some (d', ksub))
    (hk : mapHasFILE m = false) (hel : isInfixB fileTok el.toList = false)
    (hdn : namesFILEfreeE d = true) :
    mapHasFILE (setA (if optTruthy (lookupA m el) then m
      else setA m el (.node [])) el ksub) = false := by
  set m1 := if optTruthy (lookupA m el) then m else setA m el (.node []) with hm1
  have hm1FILE : mapHasFILE m1 = false := by
    rw [hm1]
    by_cases ht : optTruthy (lookupA m el) = true
    · rw [if_pos ht]; exact hk
    · rw [if_neg ht]
      exact mapHasFILE_setA_false hk rfl hel
  have hsubk : idxHasFILE ((lookupA m1 el).getD (.node [])) = false := by
    cases hl : lookupA m1 el with
    | none => rfl
    | some w => simpa using lookupA_mapHasFILE_false hm1FILE hl
  exact mapHasFILE_setA_false hm1FILE (prune_hasFILE_antimono heq hsubk hdn) hel

/-- While the index (as mutated so far) contains a `FILE` token, every
`__init__.py` entry is skipped and survives the pass unchanged. -/
theorem prune_keeps_init_of_FILE {f : Nat} {es es' : List (String × FSTree)}
    {k k' : Idx} (hk : idxHasFILE k = true)
    (h : virtual_remove_unused_files f es k = some (es', k')) :
    ∀ t : FSTree, ("__init__.py", t) ∈ es → ("__init__.py", t) ∈ es' := by
  induction f generalizing es es' k k' with
  | zero => simp [virtual_remove_unused_files] at h
  | succ f ih =>
    intro t hmem
    cases k with
    | leaf s =>
      obtain ⟨rfl, -⟩ := prune_leaf h
      exact hmem
    | node m =>
      cases es with
      | nil => cases hmem
      | cons e rest =>
        obtain ⟨el, sub⟩ := e
        cases sub with
        | dir d =>
          simp only [virtual_remove_unused_files] at h
          split at h
          · split at h
            · next rest1 k2 heq =>
              simp only [Option.some.injEq, Prod.mk.injEq] at h
              rw [← h.1]
              rcases List.mem_cons.1 hmem with hh | hh
              · exact List.mem_cons.2 (Or.inl hh)
              · exact List.mem_cons.2 (Or.inr (ih hk heq t hh))
            · exact Option.noConfusion h
          · next hcond =>
            -- the entry was processed, so it is not a skipped init:
            -- with a `FILE` token present it cannot be named `__init__.py`
            have hne : el ≠ "__init__.py" := by
              intro hel
              apply hcond
              simp only [Bool.or_eq_true, Bool.and_eq_true]
              exact Or.inl ⟨by rw [hel]; rfl, by rw [has_file_eq]; exact hk⟩
            split at h
            · exact Option.noConfusion h
            · next d' ksub heq =>
              split at h
              · next rest1 k2 heq2 =>
                simp only [Option.some.injEq, Prod.mk.injEq] at h
                rw [← h.1]
                rcases List.mem_cons.1 hmem with hh | hh
                · exact absurd (congrArg Prod.fst hh).symm hne
                · refine List.mem_cons.2 (Or.inr (ih ?_ heq2 t hh))
                  exact dirstep_hasFILE heq hk
              · exact Option.noConfusion h
        | file c =>
          simp only [virtual_remove_unused_files] at h
          split at h
          · split at h
            · next rest1 k2 heq =>
              simp only [Option.some.injEq, Prod.mk.injEq] at h
              rw [← h.1]
              rcases List.mem_cons.1 hmem with hh | hh
              · exact List.mem_cons.2 (Or.inl hh)
              · exact List.mem_cons.2 (Or.inr (ih hk heq t hh))
            · exact Option.noConfusion h
          · next hcond =>
            have hne : el ≠ "__init__.py" := by
              intro hel
              apply hcond
              simp only [Bool.or_eq_true, Bool.and_eq_true]
              exact Or.inl ⟨by rw [hel]; rfl, by rw [has_file_eq]; exact hk⟩
            split at h
            · split at h
              · next rest1 k2 heq =>
                simp only [Option.some.injEq, Prod.mk.injEq] at h
                rw [← h.1]
                rcases List.mem_cons.1 hmem with hh | hh
                · exact absurd (congrArg Prod.fst hh).symm hne
                · exact List.mem_cons.2 (Or.inr (ih hk heq t hh))
              · exact Option.noConfusion h
            · next htr =>
              split at h
              · next rest1 k2 heq =>
                simp only [Option.some.injEq, Prod.mk.injEq] at h
                rw [← h.1]
                rcases List.mem_cons.1 hmem with hh | hh
                · exact absurd (congrArg Prod.fst hh).symm hne
                · refine List.mem_cons.2 (Or.inr (ih ?_ heq t hh))
                  exact mapHasFILE_setA_true hk
                    (optTruthy_false_hasFILE (Bool.eq_false_iff.2 htr))
              · exact Option.noConfusion h

/-- With no `FILE` token in the index, no `FILE`-containing entry name
below, distinct entry names, and a falsy index entry for it, the
package-init file is soft-deleted like any other unused file. -/
theorem prune_deletes_init_of_noFILE {f : Nat} {es es' : List (String × FSTree)}
    {m : IdxMap} {k' : Idx} {c : String}
    (hk : idxHasFILE (.node m) = false)
    (hn : namesFILEfreeE es = true)
    (hdn : distinctNamesE es = true)
    (hfalsy : optTruthy (lookupA m "__init__.py") = false)
    (hmem : ("__init__.py", FSTree.file c) ∈ es)
    (h : virtual_remove_unused_files f es (.node m) = some (es', k')) :
    ("__DELETED___init__.py", FSTree.file c) ∈ es' := by
  induction f generalizing es es' m k' with
  | zero => simp [virtual_remove_unused_files] at h
  | succ f ih =>
    cases es with
    | nil => cases hmem
    | cons e rest =>
      obtain ⟨el, sub⟩ := e
      simp only [namesFILEfreeE, Bool.and_eq_true, Bool.not_eq_true'] at hn
      obtain ⟨⟨heln, hsubn⟩, hrestn⟩ := hn
      simp only [distinctNamesE, Bool.and_eq_true, Bool.not_eq_true'] at hdn
      obtain ⟨⟨hne, hsubd⟩, hrestd⟩ := hdn
      rcases List.mem_cons.1 hmem with hh | hh
      · -- the head is the init file itself: it gets soft-deleted
        obtain ⟨hel, hsub⟩ := Prod.mk.injEq .. ▸ hh
        subst hel
        cases sub with
        | dir d => exact absurd hsub.symm (by intro hx; cases hx)
        | file c' =>
          have hc : c' = c := by cases hsub; rfl
          subst hc
          simp only [virtual_remove_unused_files] at h
          have hcond : (("__init__.py" == "__init__.py" && has_file (.node m)) ||
              containsMarker "__init__.py") = false := by
            have h1 : has_file (Idx.node m) = false := by rw [has_file_eq]; exact hk
            rw [h1]
            decide
          rw [if_neg (by rw [hcond]; exact Bool.false_ne_true)] at h
          rw [if_neg (by rw [hfalsy]; exact Bool.false_ne_true)] at h
          split at h
          · next rest1 k2 heq =>
            simp only [Option.some.injEq, Prod.mk.injEq] at h
            rw [← h.1]
            exact List.mem_cons.2 (Or.inl rfl)
          · exact Option.noConfusion h
      · -- the init file sits further right; the head cannot be a duplicate
        have helne : el ≠ "__init__.py" := by
          intro hel
          rw [hel] at hne
          rw [hasEntryName_of_mem hh] at hne
          exact Bool.noConfusion hne
        cases sub with
        | dir d =>
          simp only [virtual_remove_unused_files] at h
          split at h
          · split at h
            · next rest1 k2 heq =>
              simp only [Option.some.injEq, Prod.mk.injEq] at h
              rw [← h.1]
              exact List.mem_cons.2 (Or.inr (ih hk hrestn hrestd hfalsy hh heq))
            · exact Option.noConfusion h
          · split at h
            · exact Option.noConfusion h
            · next d' ksub heq =>
              split at h
              · next rest1 k2 heq2 =>
                simp only [Option.some.injEq, Prod.mk.injEq] at h
                rw [← h.1]
                refine List.mem_cons.2 (Or.inr (ih ?_ hrestn hrestd ?_ hh heq2))
                · exact dirstep_noFILE heq hk heln
                    (by simpa [namesFILEfreeT] using hsubn)
                · rw [lookupA_setA_other _ helne]
                  by_cases ht : optTruthy (lookupA m el) = true
                  · rw [if_pos ht]; exact hfalsy
                  · rw [if_neg ht, lookupA_setA_other _ helne]; exact hfalsy
              · exact Option.noConfusion h
        | file c' =>
          simp only [virtual_remove_unused_files] at h
          split at h
          · split at h
            · next rest1 k2 heq =>
              simp only [Option.some.injEq, Prod.mk.injEq] at h
              rw [← h.1]
              exact List.mem_cons.2 (Or.inr (ih hk hrestn hrestd hfalsy hh heq))
            · exact Option.noConfusion h
          · split at h
            · split at h
              · next rest1 k2 heq =>
                simp only [Option.some.injEq, Prod.mk.injEq] at h
                rw [← h.1]
                exact List.mem_cons.2 (Or.inr (ih hk hrestn hrestd hfalsy hh heq))
              · exact Option.noConfusion h
            · split at h
              · next rest1 k2 heq =>
                simp only [Option.some.injEq, Prod.mk.injEq] at h
                rw [← h.1]
                refine List.mem_cons.2 (Or.inr (ih ?_ hrestn hrestd ?_ hh heq))
                · exact mapHasFILE_setA_false hk (by decide) heln
                · rw [lookupA_setA_other _ helne]; exact hfalsy
              · exact Option.noConfusion h

/-! ## The in-place mutation of the used-path index -/
/-- What the pass writes into the index it was handed: each soft-deleted
file's entry becomes the sentinel `'DELETED'`, and each directory entry
that was absent or falsy is given a (possibly further mutated) nested
dict. -/
theorem prune_mutates_index {f : Nat} {es es' : List (String × FSTree)}
    {m : IdxMap} {k' : Idx}
    (hd : distinctNamesE es = true)
    (h : virtual_remove_unused_files f es (.node m) = some (es', k')) :
    (∀ el c, (el, FSTree.file c) ∈ es → containsMarker el = false →
      el ≠ "__init__.py" → optTruthy (lookupA m el) = false →
      (∃ m', k' = .node m' ∧ lookupA m' el = some (.leaf "DELETED")) ∧
        ("__DELETED_" ++ el, FSTree.file c) ∈ es') ∧
    (∀ el d, (el, FSTree.dir d) ∈ es → containsMarker el = false →
      el ≠ "__init__.py" → optTruthy (lookupA m el) = false →
      ∃ m' sub, k' = .node m' ∧ lookupA m' el = some (.node sub)) := by
  induction f generalizing es es' m k' with
  | zero => simp [virtual_remove_unused_files] at h
  | succ f ih =>
    cases es with
    | nil => exact ⟨fun el c hmem => (List.not_mem_nil _ hmem).elim,
        fun el d hmem => (List.not_mem_nil _ hmem).elim⟩
    | cons e rest =>
      obtain ⟨el0, sub0⟩ := e
      simp only [distinctNamesE, Bool.and_eq_true, Bool.not_eq_true'] at hd
      obtain ⟨⟨hne0, -⟩, hrestd⟩ := hd
      have hstep : ∀ {el : String} {t : FSTree}, (el, t) ∈ rest → el0 ≠ el := by
        intro el t hmem hel
        rw [hel, hasEntryName_of_mem hmem] at hne0
        exact Bool.noConfusion hne0
      have hcond_of : ∀ {el : String}, containsMarker el = false →
          el ≠ "__init__.py" →
          ((el == "__init__.py" && has_file (.node m)) || containsMarker el) = false := by
        intro el hmk hni
        rw [Bool.or_eq_false_iff, hmk]
        refine ⟨?_, rfl⟩
        rw [Bool.and_eq_false_iff]
        left
        exact beq_eq_false_iff_ne.2 hni
      cases sub0 with
      | dir d0 =>
        simp only [virtual_remove_unused_files] at h
        split at h
        · -- head skipped
          next hcond =>
          split at h
          · next rest1 k2 heq =>
            simp only [Option.some.injEq, Prod.mk.injEq] at h
            obtain ⟨ihf, ihd⟩ := ih hrestd heq
            constructor
            · intro el c hmem hmk hni hfalsy
              rcases List.mem_cons.1 hmem with hh | hh
              · exact absurd (congrArg Prod.snd hh) (by intro hx; cases hx)
              · obtain ⟨hk', hmem'⟩ := ihf el c hh hmk hni hfalsy
                exact ⟨h.2 ▸ hk', h.1 ▸ List.mem_cons.2 (Or.inr hmem')⟩
            · intro el d hmem hmk hni hfalsy
              rcases List.mem_cons.1 hmem with hh | hh
              · -- head skipped yet named `el`: only possible for an init
                -- (marker names are excluded), contradicting `el ≠ init`
                obtain ⟨hel, -⟩ := Prod.mk.injEq .. ▸ hh
                rw [← hel] at hcond
                rw [hcond_of hmk hni] at hcond
                exact absurd hcond Bool.false_ne_true
              · obtain ⟨m', sub, hk', hl⟩ := ihd el d hh hmk hni hfalsy
                exact ⟨m', sub, h.2 ▸ hk', hl⟩
          · exact Option.noConfusion h
        · -- head processed as a directory
          split at h
          · exact Option.noConfusion h
          · next d' ksub heq =>
            split at h
            · next rest1 k2 heq2 =>
              simp only [Option.some.injEq, Prod.mk.injEq] at h
              obtain ⟨mr, hkr, hframe⟩ := prune_frame heq2
              constructor
              · intro el c hmem hmk hni hfalsy
                rcases List.mem_cons.1 hmem with hh | hh
                · exact absurd (congrArg Prod.snd hh) (by intro hx; cases hx)
                · have hne : el0 ≠ el := hstep hh
                  obtain ⟨ihf, -⟩ := ih hrestd heq2
                  have hfalsy2 : optTruthy (lookupA
                      (setA (if optTruthy (lookupA m el0) then m
                        else setA m el0 (.node [])) el0 ksub) el) = false := by
                    rw [lookupA_setA_other _ hne]
                    by_cases ht : optTruthy (lookupA m el0) = true
                    · rw [if_pos ht]; exact hfalsy
                    · rw [if_neg ht, lookupA_setA_other _ hne]; exact hfalsy
                  obtain ⟨hk', hmem'⟩ := ihf el c hh hmk hni hfalsy2
                  exact ⟨h.2 ▸ hk', h.1 ▸ List.mem_cons.2 (Or.inr hmem')⟩
              · intro el d hmem hmk hni hfalsy
                rcases List.mem_cons.1 hmem with hh | hh
                · -- the head itself: its entry was set to the pruned `{}`
                  obtain ⟨hel, -⟩ := Prod.mk.injEq .. ▸ hh
                  subst hel
                  have hm1 : (if optTruthy (lookupA m el) then m
                      else setA m el (.node [])) = setA m el (.node []) := by
                    rw [if_neg (by rw [hfalsy]; exact Bool.false_ne_true)]
                  rw [hm1, lookupA_setA_self] at heq
                  simp only [Option.getD_some] at heq
                  obtain ⟨ms, rfl, -⟩ := prune_frame heq
                  refine ⟨mr, ms, h.2 ▸ hkr, ?_⟩
                  rw [hframe el hne0, lookupA_setA_self]
                · have hne : el0 ≠ el := hstep hh
                  obtain ⟨-, ihd⟩ := ih hrestd heq2
                  have hfalsy2 : optTruthy (lookupA
                      (setA (if optTruthy (lookupA m el0) then m
                        else setA m el0 (.node [])) el0 ksub) el) = false := by
                    rw [lookupA_setA_other _ hne]
                    by_cases ht : optTruthy (lookupA m el0) = true
                    · rw [if_pos ht]; exact hfalsy
                    · rw [if_neg ht, lookupA_setA_other _ hne]; exact hfalsy
                  obtain ⟨m', sub, hk', hl⟩ := ihd el d hh hmk hni hfalsy2
                  exact ⟨m', sub, h.2 ▸ hk', hl⟩
            · exact Option.noConfusion h
      | file c0 =>
        simp only [virtual_remove_unused_files] at h
        split at h
        · -- head skipped
          next hcond =>
          split at h
          · next rest1 k2 heq =>
            simp only [Option.some.injEq, Prod.mk.injEq] at h
            obtain ⟨ihf, ihd⟩ := ih hrestd heq
            constructor
            · intro el c hmem hmk hni hfalsy
              rcases List.mem_cons.1 hmem with hh | hh
              · obtain ⟨hel, -⟩ := Prod.mk.injEq .. ▸ hh
                rw [← hel] at hcond
                rw [hcond_of hmk hni] at hcond
                exact absurd hcond Bool.false_ne_true
              · obtain ⟨hk', hmem'⟩ := ihf el c hh hmk hni hfalsy
                exact ⟨h.2 ▸ hk', h.1 ▸ List.mem_cons.2 (Or.inr hmem')⟩
            · intro el d hmem hmk hni hfalsy
              rcases List.mem_cons.1 hmem with hh | hh
              · exact absurd (congrArg Prod.snd hh) (by intro hx; cases hx)
              · obtain ⟨m', sub, hk', hl⟩ := ihd el d hh hmk hni hfalsy
                exact ⟨m', sub, h.2 ▸ hk', hl⟩
          · exact Option.noConfusion h
        · split at h
          · -- head kept (truthy)
            next htr =>
            split at h
            · next rest1 k2 heq =>
              simp only [Option.some.injEq, Prod.mk.injEq] at h
              obtain ⟨ihf, ihd⟩ := ih hrestd heq
              constructor
              · intro el c hmem hmk hni hfalsy
                rcases List.mem_cons.1 hmem with hh | hh
                · obtain ⟨hel, -⟩ := Prod.mk.injEq .. ▸ hh
                  rw [hel] at hfalsy
                  rw [hfalsy] at htr
                  exact absurd htr Bool.false_ne_true
                · obtain ⟨hk', hmem'⟩ := ihf el c hh hmk hni hfalsy
                  exact ⟨h.2 ▸ hk', h.1 ▸ List.mem_cons.2 (Or.inr hmem')⟩
              · intro el d hmem hmk hni hfalsy
                rcases List.mem_cons.1 hmem with hh | hh
                · exact absurd (congrArg Prod.snd hh) (by intro hx; cases hx)
                · obtain ⟨m', sub, hk', hl⟩ := ihd el d hh hmk hni hfalsy
                  exact ⟨m', sub, h.2 ▸ hk', hl⟩
            · exact Option.noConfusion h
          · -- head soft-deleted
            next htr =>
            split at h
            · next rest1 k2 heq =>
              simp only [Option.some.injEq, Prod.mk.injEq] at h
              obtain ⟨mr, hkr, hframe⟩ := prune_frame heq
              obtain ⟨ihf, ihd⟩ := ih hrestd heq
              constructor
              · intro el c hmem hmk hni hfalsy
                rcases List.mem_cons.1 hmem with hh | hh
                · obtain ⟨hel, hcc⟩ := Prod.mk.injEq .. ▸ hh
                  have hc : c0 = c := by cases hcc; rfl
                  subst hel hc
                  refine ⟨⟨mr, h.2 ▸ hkr, ?_⟩, h.1 ▸ List.mem_cons.2 (Or.inl rfl)⟩
                  rw [hframe el hne0, lookupA_setA_self]
                · have hne : el0 ≠ el := hstep hh
                  have hfalsy2 : optTruthy (lookupA
                      (setA m el0 (.leaf "DELETED")) el) = false := by
                    rw [lookupA_setA_other _ hne]; exact hfalsy
                  obtain ⟨hk', hmem'⟩ := ihf el c hh hmk hni hfalsy2
                  exact ⟨h.2 ▸ hk', h.1 ▸ List.mem_cons.2 (Or.inr hmem')⟩
              · intro el d hmem hmk hni hfalsy
                rcases List.mem_cons.1 hmem with hh | hh
                · exact absurd (congrArg Prod.snd hh) (by intro hx; cases hx)
                · have hne : el0 ≠ el := hstep hh
                  have hfalsy2 : optTruthy (lookupA
                      (setA m el0 (.leaf "DELETED")) el) = false := by
                    rw [lookupA_setA_other _ hne]; exact hfalsy
                  obtain ⟨m', sub, hk', hl⟩ := ihd el d hh hmk hni hfalsy2
                  exact ⟨m', sub, h.2 ▸ hk', hl⟩
            · exact Option.noConfusion h

/-! ## Size accounting -/
theorem filter_sum_le (l : List (List Char × Nat)) (p : List Char × Nat → Bool) :
    ((l.filter p).map (fun f => f.2)).sum ≤ (l.map (fun f => f.2)).sum := by
  induction l with
  | nil => simp
  | cons e rest ih =>
    by_cases hp : p e = true
    · simp only [List.filter_cons, if_pos hp, List.map_cons, List.sum_cons]
      omega
    · simp only [List.filter_cons, if_neg hp, List.map_cons, List.sum_cons]
      omega

/-! ## Claim theorems: the pruning engine -/
/-- C1 (counterexample). The round-trip claim quantifies over every
directory tree; on a tree that already holds an entry named
`__DELETED_x`, the prune pass (with an empty index) touches nothing, yet
the restorer renames that pre-existing entry to `x`, so the restored tree
is not byte-identical to the pre-prune state. -/
theorem C1_prune_restore_counterexample :
    virtual_remove_unused_files 2 [("__DELETED_x", FSTree.file "c")] (.node []) =
      some ([("__DELETED_x", FSTree.file "c")], .node []) ∧
    re_add_virtualy_removed_files 2 "/pkg/".toList
        [("__DELETED_x", FSTree.file "c")] = some [("x", FSTree.file "c")] ∧
    [("x", FSTree.file "c")] ≠ [("__DELETED_x", FSTree.file "c")] := by
  refine ⟨rfl, rfl, ?_⟩
  intro hx
  injection hx with h1 h2
  injection h1 with ha hb
  exact absurd ha (by decide)

/-- C1 (amended). For every package directory tree none of whose entry
names contain the soft-delete marker, pruning (when the pass returns
normally) and then restoring all soft-deleted entries yields a directory
tree byte-identical to the pre-prune state, with identical total size. -/
theorem C1_prune_restore_roundtrip {f g : Nat} {pre : List Char}
    {es es' r : List (String × FSTree)} {k k' : Idx}
    (hm : noMarkersE es = true)
    (h : virtual_remove_unused_files f es k = some (es', k'))
    (hr : re_add_virtualy_removed_files g pre es' = some r) :
    r = es ∧
      ((rglobE pre r).map (fun x => x.2)).sum =
        ((rglobE pre es).map (fun x => x.2)).sum := by
  have h1 := prune_restore_roundtrip hm h hr
  exact ⟨h1, by rw [h1]⟩

theorem C1_prune_restore_roundtrip_witness :
    noMarkersE [("a.py", FSTree.file "aa"), ("b.py", FSTree.file "b")] = true ∧
    ([("a.py", FSTree.file "aa"), ("b.py", FSTree.file "b")] :
        List (String × FSTree)) =
      [("a.py", FSTree.file "aa"), ("b.py", FSTree.file "b")] := by
  refine ⟨rfl, ?_⟩
  have h := @C1_prune_restore_roundtrip 3 3 "/p/".toList
    [("a.py", FSTree.file "aa"), ("b.py", FSTree.file "b")]
    [("a.py", FSTree.file "aa"), ("__DELETED_b.py", FSTree.file "b")]
    [("a.py", FSTree.file "aa"), ("b.py", FSTree.file "b")]
    (.node [("a.py", .leaf "FILE")])
    (.node [("a.py", .leaf "FILE"), ("b.py", .leaf "DELETED")])
    rfl rfl rfl
  exact h.1

/-- C3 (counterexample). A directory whose index holds no used leaf at
all: the unused directory `PROFILES` is processed first and inserts the
key `PROFILES` into the index, whose string rendering then contains
`FILE`, so the subsequent `has_file` test keeps `__init__.py` even though
zero files are used — the claim demands it be soft-deleted. -/
theorem C3_init_counterexample :
    hasUsedLeaf (.node []) = false ∧
    virtual_remove_unused_files 3
        [("PROFILES", FSTree.dir []), ("__init__.py", FSTree.file "x")]
        (.node []) =
      some ([("PROFILES", FSTree.dir []), ("__init__.py", FSTree.file "x")],
        .node [("PROFILES", .node [])]) :=
  ⟨rfl, rfl⟩

/-- C3 (amended). The init file is kept exactly when `'FILE'` occurs in
the string rendering of the (mutated-so-far) index: (a) an index holding
a used-file leaf at any depth always keeps every `__init__.py` entry
untouched; (b) when no `FILE` substring occurs among the index's keys and
string values, no entry name below the directory contains `FILE`, entry
names are distinct and the init file's own entry is absent or falsy, the
init file is soft-deleted like any other unused file. -/
theorem C3_init_policy :
    (∀ (f : Nat) (es es' : List (String × FSTree)) (k k' : Idx) (t : FSTree),
      hasUsedLeaf k = true →
      virtual_remove_unused_files f es k = some (es', k') →
      ("__init__.py", t) ∈ es → ("__init__.py", t) ∈ es') ∧
    (∀ (f : Nat) (es es' : List (String × FSTree)) (m : IdxMap) (k' : Idx)
        (c : String),
      idxHasFILE (.node m) = false →
      namesFILEfreeE es = true →
      distinctNamesE es = true →
      optTruthy (lookupA m "__init__.py") = false →
      ("__init__.py", FSTree.file c) ∈ es →
      virtual_remove_unused_files f es (.node m) = some (es', k') →
      ("__DELETED___init__.py", FSTree.file c) ∈ es') := by
  constructor
  · intro f es es' k k' t hk h hmem
    exact prune_keeps_init_of_FILE (idxHasFILE_of_hasUsedLeaf k hk) h t hmem
  · intro f es es' m k' c hk hn hd hfalsy hmem h
    exact prune_deletes_init_of_noFILE hk hn hd hfalsy hmem h

theorem C3_init_policy_witness :
    ("__init__.py", FSTree.file "i") ∈
        ([("__init__.py", FSTree.file "i"), ("a.py", FSTree.file "a")] :
          List (String × FSTree)) ∧
    ("__DELETED___init__.py", FSTree.file "i") ∈
        ([("__DELETED_a.py", FSTree.file "a"),
          ("__DELETED___init__.py", FSTree.file "i")] :
          List (String × FSTree)) := by
  constructor
  · exact C3_init_policy.1 3 [("__init__.py", FSTree.file "i"), ("a.py", FSTree.file "a")]
      [("__init__.py", FSTree.file "i"), ("a.py", FSTree.file "a")]
      (.node [("a.py", .leaf "FILE")])
      (.node [("a.py", .leaf "FILE")]) (FSTree.file "i") rfl rfl
      (List.mem_cons.2 (Or.inl rfl))
  · exact C3_init_policy.2 3 [("a.py", FSTree.file "a"), ("__init__.py", FSTree.file "i")]
      [("__DELETED_a.py", FSTree.file "a"), ("__DELETED___init__.py", FSTree.file "i")]
      [] (.node [("a.py", .leaf "DELETED"), ("__init__.py", .leaf "DELETED")])
      "i" rfl rfl rfl rfl (List.mem_cons.2 (Or.inr (List.mem_cons.2 (Or.inl rfl)))) rfl

/-- C4. On a directory tree with distinct entry names, running the prune
pass twice in a row (both runs returning normally) produces the same
final file set — and in fact the same index — as running it once:
entries already bearing the `__DELETED_` marker are skipped on the
second run. -/
theorem C4_prune_idempotent {f g : Nat} {es es1 es2 : List (String × FSTree)}
    {k k1 k2 : Idx}
    (hd : distinctNamesE es = true)
    (h1 : virtual_remove_unused_files f es k = some (es1, k1))
    (h2 : virtual_remove_unused_files g es1 k1 = some (es2, k2)) :
    es2 = es1 ∧ k2 = k1 :=
  prune_idempotent hd h1 h2

theorem C4_prune_idempotent_witness :
    ([("a.py", FSTree.file "aa"), ("__DELETED_b.py", FSTree.file "b")] :
        List (String × FSTree)) =
      [("a.py", FSTree.file "aa"), ("__DELETED_b.py", FSTree.file "b")] := by
  have h := @C4_prune_idempotent 3 3
    [("a.py", FSTree.file "aa"), ("b.py", FSTree.file "b")]
    [("a.py", FSTree.file "aa"), ("__DELETED_b.py", FSTree.file "b")]
    [("a.py", FSTree.file "aa"), ("__DELETED_b.py", FSTree.file "b")]
    (.node [("a.py", .leaf "FILE")])
    (.node [("a.py", .leaf "FILE"), ("b.py", .leaf "DELETED")])
    (.node [("a.py", .leaf "FILE"), ("b.py", .leaf "DELETED")])
    rfl rfl rfl
  exact h.1

/-- C5. For every directory tree the size report satisfies exactly
`size_before = size_after + size_deleted` with a non-negative kept size,
and the reported deleted-file percentage is exactly
`100 * deleted_count / total_count` (0 when the tree has no files). -/
theorem C5_size_accounting (folder : String) (es : List (String × FSTree)) :
    (compute_virtual_gained_size folder es).size_before =
        (compute_virtual_gained_size folder es).size_after +
          (compute_virtual_gained_size folder es).size_reduction ∧
      0 ≤ (compute_virtual_gained_size folder es).size_after ∧
      ((compute_virtual_gained_size folder es).total_files ≠ 0 →
        (compute_virtual_gained_size folder es).deleted_pct *
            (compute_virtual_gained_size folder es).total_files =
          100 * (compute_virtual_gained_size folder es).deleted_files) := by
  refine ⟨by simp [compute_virtual_gained_size], ?_, ?_⟩
  · simp only [compute_virtual_gained_size, sub_nonneg, Int.ofNat_le]
    exact_mod_cast filter_sum_le _ _
  · intro ht
    simp only [compute_virtual_gained_size] at ht ⊢
    rw [if_neg (by
      intro hemp
      exact ht (by rw [List.isEmpty_iff.1 hemp]; rfl))]
    rw [div_mul_cancel₀]
    exact_mod_cast ht

theorem C5_size_accounting_witness :
    (compute_virtual_gained_size "/p"
        [("a.py", FSTree.file "aa"), ("__DELETED_b.py", FSTree.file "b")]).size_before =
      (compute_virtual_gained_size "/p"
        [("a.py", FSTree.file "aa"), ("__DELETED_b.py", FSTree.file "b")]).size_after +
        (compute_virtual_gained_size "/p"
          [("a.py", FSTree.file "aa"), ("__DELETED_b.py", FSTree.file "b")]).size_reduction ∧
    (compute_virtual_gained_size "/p"
        [("a.py", FSTree.file "aa"), ("__DELETED_b.py", FSTree.file "b")]).deleted_pct *
        (compute_virtual_gained_size "/p"
          [("a.py", FSTree.file "aa"), ("__DELETED_b.py", FSTree.file "b")]).total_files =
      100 * (compute_virtual_gained_size "/p"
        [("a.py", FSTree.file "aa"), ("__DELETED_b.py", FSTree.file "b")]).deleted_files := by
  have h := C5_size_accounting "/p"
    [("a.py", FSTree.file "aa"), ("__DELETED_b.py", FSTree.file "b")]
  exact ⟨h.1, h.2.2 (by decide)⟩

/-- C10 (counterexample). An index produced by `extract_used_files` in
which every file of the tree is used: the prune pass deletes nothing,
inserts nothing, and returns the index equal to the one it received —
the claim's "no longer equal to the original index" fails. -/
theorem C10_mutation_counterexample :
    extract_used_files 30 ["site-packages/a.py"] =
      some [("a.py", .leaf "FILE")] ∧
    virtual_remove_unused_files 2 [("a.py", FSTree.file "c")]
        (.node [("a.py", .leaf "FILE")]) =
      some ([("a.py", FSTree.file "c")], .node [("a.py", .leaf "FILE")]) :=
  ⟨rfl, rfl⟩

/-- C10 (amended). The pass returns the mutated index (which is what any
re-run or caller observes): every directory entry absent-or-falsy in the
index gets a nested dict, every soft-deleted file's entry becomes the
sentinel `'DELETED'`, and whenever at least one file is soft-deleted the
returned index differs from the one received; it can be unchanged when
nothing is deleted and no directory entry was missing. -/
theorem C10_index_mutation {f : Nat} {es es' : List (String × FSTree)}
    {m : IdxMap} {k' : Idx}
    (hd : distinctNamesE es = true)
    (h : virtual_remove_unused_files f es (.node m) = some (es', k')) :
    (∀ el c, (el, FSTree.file c) ∈ es → containsMarker el = false →
      el ≠ "__init__.py" → optTruthy (lookupA m el) = false →
      (∃ m', k' = .node m' ∧ lookupA m' el = some (.leaf "DELETED")) ∧
        ("__DELETED_" ++ el, FSTree.file c) ∈ es') ∧
    (∀ el d, (el, FSTree.dir d) ∈ es → containsMarker el = false →
      el ≠ "__init__.py" → optTruthy (lookupA m el) = false →
      ∃ m' sub, k' = .node m' ∧ lookupA m' el = some (.node sub)) ∧
    (∀ el c, (el, FSTree.file c) ∈ es → containsMarker el = false →
      el ≠ "__init__.py" → optTruthy (lookupA m el) = false →
      k' ≠ .node m) := by
  obtain ⟨hfile, hdir⟩ := prune_mutates_index hd h
  refine ⟨hfile, hdir, ?_⟩
  intro el c hmem hmk hni hfalsy hkeq
  obtain ⟨⟨m', hk', hl⟩, -⟩ := hfile el c hmem hmk hni hfalsy
  rw [hkeq] at hk'
  have hmm : m = m' := by cases hk'; rfl
  rw [← hmm] at hl
  rw [hl] at hfalsy
  exact absurd hfalsy (by simp [optTruthy, idxTruthy])

theorem C10_index_mutation_witness :
    (∃ m', (Idx.node [("b.py", Idx.leaf "DELETED")]) = .node m' ∧
      lookupA m' "b.py" = some (.leaf "DELETED")) ∧
    ("__DELETED_b.py", FSTree.file "b") ∈
      ([("__DELETED_b.py", FSTree.file "b")] : List (String × FSTree)) := by
  have h := @C10_index_mutation 2
    [("b.py", FSTree.file "b")]
    [("__DELETED_b.py", FSTree.file "b")]
    [] (.node [("b.py", .leaf "DELETED")])
    rfl rfl
  exact h.1 "b.py" "b" (List.mem_cons.2 (Or.inl rfl)) rfl (by decide) rfl

theorem stmtLines_eq (m : ImportLines) (s : PyImport) :
    stmtLines m s =
      if stmtEnd s ≠ 0 then
        contNones (setIL m (stmtLineno s) (some (stmtRenders s)))
          (stmtLineno s + 1) (stmtEnd s + 1 - (stmtLineno s + 1))
      else setIL m (stmtLineno s) (some (stmtRenders s)) := by
  cases s <;> rfl

theorem lookupIL_setIL_self (m : ImportLines) (x : Nat) (v : Option (List String)) :
    lookupIL (setIL m x v) x = some v := by
  induction m with
  | nil => simp [setIL, lookupIL]
  | cons e rest ih =>
    obtain ⟨k, w⟩ := e
    by_cases h : k = x <;> simp [setIL, lookupIL, h, ih]

theorem lookupIL_setIL_other (m : ImportLines) {x y : Nat} (h : x ≠ y)
    (v : Option (List String)) : lookupIL (setIL m x v) y = lookupIL m y := by
  induction m with
  | nil => simp [setIL, lookupIL, h]
  | cons e rest ih =>
    obtain ⟨k, w⟩ := e
    by_cases hk : k = x
    · subst hk
      simp [setIL, lookupIL, h, ih]
    · simp [setIL, lookupIL, hk, ih]

theorem lookupIL_contNones (m : ImportLines) (start cnt x : Nat) :
    lookupIL (contNones m start cnt) x =
      if start ≤ x ∧ x < start + cnt then some none else lookupIL m x := by
  induction cnt generalizing m start with
  | zero =>
    rw [if_neg (by omega)]
    rfl
  | succ cnt ih =>
    rw [contNones, List.range'_succ]
    simp only [List.foldl_cons]
    have h2 : (List.range' (start + 1) cnt).foldl (fun m2 j => setIL m2 j none)
        (setIL m start none) = contNones (setIL m start none) (start + 1) cnt := rfl
    rw [h2, ih]
    by_cases hx : x = start
    · subst hx
      rw [if_neg (by omega), if_pos (by omega), lookupIL_setIL_self]
    · by_cases hin : start + 1 ≤ x ∧ x < start + 1 + cnt
      · rw [if_pos hin, if_pos (by omega)]
      · rw [if_neg hin, if_neg (by omega), lookupIL_setIL_other _ (by omega)]

theorem lookupIL_single (s : PyImport) (h1 : 1 ≤ stmtLineno s)
    (h2 : stmtLineno s ≤ stmtEnd s) (x : Nat) :
    lookupIL (buildImportLines [s]) x =
      if x = stmtLineno s then some (some (stmtRenders s))
      else if stmtLineno s < x ∧ x ≤ stmtEnd s then some none
      else none := by
  have hb : buildImportLines [s] = stmtLines [] s := rfl
  rw [hb, stmtLines_eq, if_pos (by omega : stmtEnd s ≠ 0), lookupIL_contNones]
  by_cases hx : x = stmtLineno s
  · subst hx
    rw [if_neg (by omega), lookupIL_setIL_self, if_pos rfl]
  · rw [if_neg hx]
    by_cases hin : stmtLineno s < x ∧ x ≤ stmtEnd s
    · rw [if_pos (by omega), if_pos hin]
    · rw [if_neg (by omega), lookupIL_setIL_other _ (by omega), if_neg hin]
      rfl

theorem assemble_after (s : PyImport) (h1 : 1 ≤ stmtLineno s)
    (h2 : stmtLineno s ≤ stmtEnd s) :
    ∀ (lines : List String) (i : Nat), stmtLineno s < i →
      assembleLines (buildImportLines [s]) i lines =
        lines.drop (stmtEnd s + 1 - i) := by
  intro lines
  induction lines with
  | nil => intro i hi; simp [assembleLines]
  | cons l rest ih =>
    intro i hi
    rw [assembleLines, lookupIL_single s h1 h2]
    by_cases hle : i ≤ stmtEnd s
    · rw [if_neg (by omega), if_pos (by omega), ih (i + 1) (by omega),
        show stmtEnd s + 1 - i = (stmtEnd s + 1 - (i + 1)) + 1 from by omega,
        List.drop_succ_cons]
    · rw [if_neg (by omega), if_neg (by omega), ih (i + 1) (by omega),
        show stmtEnd s + 1 - i = 0 from by omega,
        show stmtEnd s + 1 - (i + 1) = 0 from by omega,
        List.drop_zero, List.drop_zero]

theorem assemble_main (s : PyImport) (h1 : 1 ≤ stmtLineno s)
    (h2 : stmtLineno s ≤ stmtEnd s) :
    ∀ (lines : List String) (i : Nat), 1 ≤ i → i ≤ stmtLineno s →
      stmtLineno s ≤ i - 1 + lines.length → stmtEnd s ≤ i - 1 + lines.length →
      assembleLines (buildImportLines [s]) i lines =
        lines.take (stmtLineno s - i) ++ stmtRenders s ++
          lines.drop (stmtEnd s + 1 - i) := by
  intro lines
  induction lines with
  | nil =>
    intro i hi1 hi2 hL hE
    simp only [List.length_nil, Nat.add_zero] at hL
    omega
  | cons l rest ih =>
    intro i hi1 hi2 hL hE
    simp only [List.length_cons] at hL hE
    rw [assembleLines, lookupIL_single s h1 h2]
    by_cases hx : i = stmtLineno s
    · rw [if_pos hx, assemble_after s h1 h2 rest (i + 1) (by omega),
        show stmtLineno s - i = 0 from by omega, List.take_zero, List.nil_append,
        show stmtEnd s + 1 - i = (stmtEnd s + 1 - (i + 1)) + 1 from by omega,
        List.drop_succ_cons]
    · rw [if_neg hx, if_neg (by omega),
        ih (i + 1) (by omega) (by omega) (by omega) (by omega),
        show stmtLineno s - i = (stmtLineno s - (i + 1)) + 1 from by omega,
        List.take_succ_cons,
        show stmtEnd s + 1 - i = (stmtEnd s + 1 - (i + 1)) + 1 from by omega,
        List.drop_succ_cons]
      simp

/-! ## Claim theorems: the import normalizer -/
/-- C6 (counterexample).  A one-line two-name import is rewritten into
two lines with no blank continuation line inserted: the rewritten file
has one line more than the original, so the total line count is not
preserved. -/
theorem C6_line_count_counterexample :
    split_imports
        [.importFrom 0 (some "x") [⟨"a", none⟩, ⟨"b", none⟩] 1 1]
        "from x import a, b" = "from x import a\nfrom x import b" ∧
    (splitLines "from x import a\nfrom x import b").length = 2 ∧
    (splitLines "from x import a, b").length = 1 :=
  ⟨rfl, rfl, rfl⟩

/-- C6 (amended).  The normalizer rewrites an import statement (single
or multi-name, relative or absolute, one line or spanning several) into
one statement per name, each on its own line, replacing exactly the
statement's original line span; lines before the statement keep their
positions, lines after it keep their relative order but shift by
(number of names) − (span length); no blank lines are inserted, so the
total line count is preserved only when those two quantities agree. -/
theorem C6_one_statement_per_line (s : PyImport) (code : String)
    (h1 : 1 ≤ stmtLineno s) (h2 : stmtLineno s ≤ stmtEnd s)
    (h3 : stmtEnd s ≤ (splitLines code).length) :
    split_imports [s] code =
      joinLines ((splitLines code).take (stmtLineno s - 1) ++ stmtRenders s ++
        (splitLines code).drop (stmtEnd s)) := by
  rw [split_imports,
    assemble_main s h1 h2 (splitLines code) 1 le_rfl h1 (by omega) (by omega),
    show stmtEnd s + 1 - 1 = stmtEnd s from by omega]

theorem C6_one_statement_per_line_witness :
    split_imports [.importFrom 1 none [⟨"a", none⟩, ⟨"b", none⟩] 2 3]
        "pre\nfrom . import (a,\n  b)\npost" =
      joinLines ((splitLines "pre\nfrom . import (a,\n  b)\npost").take 1 ++
        stmtRenders (.importFrom 1 none [⟨"a", none⟩, ⟨"b", none⟩] 2 3) ++
        (splitLines "pre\nfrom . import (a,\n  b)\npost").drop 3) :=
  C6_one_statement_per_line (.importFrom 1 none [⟨"a", none⟩, ⟨"b", none⟩] 2 3)
    "pre\nfrom . import (a,\n  b)\npost" (by decide) (by decide) (by decide)

/-! ## Analysis of the backup mechanism -/
theorem fsRead_fsWrite_self (fs : PyFs) (x v : String) :
    fsRead (fsWrite fs x v) x = some v := by
  induction fs with
  | nil => simp [fsWrite, fsRead]
  | cons q rest ih =>
    obtain ⟨k, w⟩ := q
    by_cases hk : k = x
    · subst hk; simp [fsWrite, fsRead]
    · simp [fsWrite, fsRead, hk, ih]

theorem fsRead_fsWrite_other (fs : PyFs) (x v y : String) (h : y ≠ x) :
    fsRead (fsWrite fs x v) y = fsRead fs y := by
  have hne : ¬ (x = y) := fun he => h he.symm
  induction fs with
  | nil => simp [fsWrite, fsRead, hne]
  | cons q rest ih =>
    obtain ⟨k, w⟩ := q
    by_cases hk : k = x
    · subst hk
      simp [fsWrite, fsRead, hne]
    · simp only [fsWrite, if_neg hk, fsRead, ih]

theorem fsRead_some_mem {fs : PyFs} {x v : String}
    (h : fsRead fs x = some v) : (x, v) ∈ fs := by
  induction fs with
  | nil => exact absurd h (by simp [fsRead])
  | cons q rest ih =>
    obtain ⟨k, w⟩ := q
    by_cases hk : k = x
    · subst hk
      rw [fsRead, if_pos rfl] at h
      exact (Option.some_inj.mp h) ▸ List.mem_cons_self _ _
    · rw [fsRead, if_neg hk] at h
      exact List.mem_cons_of_mem _ (ih h)

theorem fsWrite_absent (fs : PyFs) (x v : String)
    (h : fsRead fs x = none) : fsWrite fs x v = fs ++ [(x, v)] := by
  induction fs with
  | nil => rfl
  | cons q rest ih =>
    obtain ⟨k, w⟩ := q
    by_cases hk : k = x
    · rw [fsRead, if_pos hk] at h; exact Option.noConfusion h
    · rw [fsRead, if_neg hk] at h
      rw [fsWrite, if_neg hk, ih h, List.cons_append]

theorem fsWrite_append_left (l1 l2 : PyFs) (x v w : String)
    (h : fsRead l1 x = some w) :
    fsWrite (l1 ++ l2) x v = fsWrite l1 x v ++ l2 := by
  induction l1 with
  | nil => exact absurd h (by simp [fsRead])
  | cons q rest ih =>
    obtain ⟨k, u⟩ := q
    by_cases hk : k = x
    · simp [fsWrite, hk]
    · rw [fsRead, if_neg hk] at h
      simp only [List.cons_append, fsWrite, if_neg hk, List.append_eq, ih h]

theorem fsWrite_clean_names {fs : PyFs} {x v : String} {w : String}
    (hclean : ∀ q ∈ fs, isInfixB initialTok q.1.toList = false)
    (h : fsRead fs x = some w) :
    ∀ q ∈ fsWrite fs x v, isInfixB initialTok q.1.toList = false := by
  induction fs with
  | nil => exact absurd h (by simp [fsRead])
  | cons q0 rest ih =>
    obtain ⟨k, u⟩ := q0
    by_cases hk : k = x
    · intro q hq
      rw [fsWrite, if_pos hk] at hq
      rcases List.mem_cons.mp hq with hq | hq
      · subst hq; exact hclean (k, u) (List.mem_cons_self _ _)
      · exact hclean q (List.mem_cons_of_mem _ hq)
    · intro q hq
      rw [fsRead, if_neg hk] at h
      rw [fsWrite, if_neg hk] at hq
      rcases List.mem_cons.mp hq with hq | hq
      · subst hq; exact hclean (k, u) (List.mem_cons_self _ _)
      · exact ih (fun r hr => hclean r (List.mem_cons_of_mem _ hr)) h q hq

theorem restore_skip_clean (g : PyFs)
    (hclean : ∀ q ∈ g, isInfixB initialTok q.1.toList = false) :
    ∀ acc : PyFs,
      g.foldl (fun acc f =>
        if isInfixB initialTok f.1.toList then
          fsWrite acc (dropFirstOcc initialTok f.1.toList).asString f.2
        else acc) acc = acc := by
  induction g with
  | nil => intro acc; rfl
  | cons q rest ih =>
    intro acc
    rw [List.foldl_cons, if_neg (by
      rw [hclean q (List.mem_cons_self _ _)]; exact Bool.false_ne_true)]
    exact ih (fun r hr => hclean r (List.mem_cons_of_mem _ hr)) acc

theorem initial_toList_append (p : String) :
    ("__INITIAL_" ++ p).toList = initialTok ++ p.toList := rfl

theorem initial_ne (p : String) : "__INITIAL_" ++ p ≠ p := by
  intro he
  have hl := congrArg (fun s : String => s.toList.length) he
  simp only [initial_toList_append, List.length_append] at hl
  have h10 : initialTok.length = 10 := rfl
  omega

/-- C7 (counterexample).  The backup is rewritten on every run, not
once: after a second normalization of the same file the `__INITIAL_`
backup holds the already-rewritten text, no longer the content the file
had before its first rewrite. -/
theorem C7_backup_counterexample :
    fsRead c7Fs0 "a.py" = some "from x import a, b" ∧
    c7Run2.map (fun fs2 => fsRead fs2 "__INITIAL_a.py") =
      some (some "from x import a\nfrom x import b") :=
  ⟨rfl, rfl⟩

/-- C7 (amended).  On every run of the normalizer over a file, a backup
named with the `__INITIAL_` prefix is written before the rewrite and
holds the file's content as of that run — overwriting any backup from an
earlier run — and restoring afterwards reproduces that run's pre-rewrite
content at the file's path (not necessarily the content before the first
ever rewrite). -/
theorem C7_backup_each_run (ast : String → List PyImport) (fs : PyFs)
    (path content : String)
    (h : fsRead fs path = some content)
    (hclean : ∀ q ∈ fs, isInfixB initialTok q.1.toList = false) :
    ∃ fs', single_import_per_line ast fs path = some fs' ∧
      fsRead fs' ("__INITIAL_" ++ path) = some content ∧
      fsRead fs' path = some (split_imports (ast content) content) ∧
      fsRead (restore_init_files_to_initial fs') path = some content := by
  have hbInf : isInfixB initialTok ("__INITIAL_" ++ path).toList = true := by
    rw [initial_toList_append]; exact isInfixB_self_append _ _
  have hbnone : fsRead fs ("__INITIAL_" ++ path) = none := by
    cases hb : fsRead fs ("__INITIAL_" ++ path) with
    | none => rfl
    | some w =>
      have hm := hclean _ (fsRead_some_mem hb)
      rw [hbInf] at hm
      exact absurd hm (by decide)
  refine ⟨fsWrite (fsWrite fs ("__INITIAL_" ++ path) content)
    path (split_imports (ast content) content), ?_, ?_, ?_, ?_⟩
  · simp only [single_import_per_line, h]
  · rw [fsRead_fsWrite_other _ _ _ _ (initial_ne path), fsRead_fsWrite_self]
  · rw [fsRead_fsWrite_self]
  · have hfs1 : fsWrite fs ("__INITIAL_" ++ path) content =
        fs ++ [("__INITIAL_" ++ path, content)] := fsWrite_absent _ _ _ hbnone
    have hfs2 : fsWrite (fsWrite fs ("__INITIAL_" ++ path) content)
        path (split_imports (ast content) content) =
        fsWrite fs path (split_imports (ast content) content) ++
          [("__INITIAL_" ++ path, content)] := by
      rw [hfs1]
      exact fsWrite_append_left _ _ _ _ _ h
    rw [hfs2, restore_init_files_to_initial, List.foldl_append,
      restore_skip_clean _ (fsWrite_clean_names hclean h), List.foldl_cons,
      if_pos hbInf, List.foldl_nil, initial_toList_append,
      dropFirstOcc_append _ _ (by decide), String.asString_toList,
      fsRead_fsWrite_self]

theorem C7_backup_each_run_witness :
    fsRead [("a.py", "import x")] "a.py" = some "import x" ∧
    (∀ q ∈ [("a.py", "import x")], isInfixB initialTok q.1.toList = false) ∧
    ∃ fs', single_import_per_line (fun _ => []) [("a.py", "import x")]
        "a.py" = some fs' ∧
      fsRead fs' ("__INITIAL_" ++ "a.py") = some "import x" ∧
      fsRead fs' "a.py" = some (split_imports [] "import x") ∧
      fsRead (restore_init_files_to_initial fs') "a.py" = some "import x" :=
  ⟨rfl, by decide,
    C7_backup_each_run (fun _ => []) [("a.py", "import x")] "a.py" "import x"
      rfl (by decide)⟩

/-- C2 (counterexample).  Two references of the same file that resolve
to the same path each get their own child node: the freshly created
children are attached to `tree.children` only at the end of
`extract_imports`, so the second reference's `search_node` cannot see
the first reference's pending node, and the two child objects differ (by
name and line), defeating the set-deduplication.  The resolved path
`/lib/a.py` ends up carried by two distinct nodes. -/
theorem C2_single_node_counterexample :
    ((extract_imports c2Arena 0 c2Env).get 0).children = [1, 2] ∧
    ((extract_imports c2Arena 0 c2Env).get 1).path = some "/lib/a.py" ∧
    ((extract_imports c2Arena 0 c2Env).get 2).path = some "/lib/a.py" ∧
    (extract_imports c2Arena 0 c2Env).get 1 ≠
      (extract_imports c2Arena 0 c2Env).get 2 :=
  ⟨rfl, rfl, rfl, by decide⟩

/-- C2 (amended).  When a reference's resolved path is already carried by
a node reachable from the root through attached `children` links,
exploring that reference appends the referencing file's path to the
existing node's `other_parents` and creates no new node; but references
resolved within the same `extract_imports` pass do not see each other's
pending children, so one pass can mint several nodes for one path. -/
theorem C2_rediscovery_appends (st : Arena) (treeId : Nat) (nm : JediName)
    (ltr : Nat → Option String) (w : Bool) (d : JediDefinition) (p : String)
    (nodeId : Nat)
    (hg : nm.goto = [d])
    (hmp : d.module_path = some p)
    (hne : some p ≠ (st.get treeId).path)
    (hs : Tree.search_node st st.nodes.length
        (Tree.to_root st st.nodes.length treeId) p = some nodeId) :
    explore_name_definitions st treeId nm ltr w =
      (st.set nodeId { st.get nodeId with
          other_parents := (st.get nodeId).other_parents ++
            [(st.get treeId).path] },
        []) := by
  have hgoto : ¬ (nm.goto = []) := by rw [hg]; exact List.cons_ne_nil d []
  rw [explore_name_definitions, if_neg hgoto, hg, List.foldl_cons,
    List.foldl_nil]
  simp only [explore_step, hmp]
  rw [if_pos hne, hs]

theorem C2_rediscovery_appends_witness :
    c2WName.goto = [c2WDef] ∧
    c2WDef.module_path = some "/lib/a.py" ∧
    some "/lib/a.py" ≠ (c2WArena.get 0).path ∧
    Tree.search_node c2WArena c2WArena.nodes.length
        (Tree.to_root c2WArena c2WArena.nodes.length 0) "/lib/a.py" =
      some 1 ∧
    explore_name_definitions c2WArena 0 c2WName (fun _ => none) false =
      (c2WArena.set 1 { c2WArena.get 1 with
          other_parents := (c2WArena.get 1).other_parents ++
            [(c2WArena.get 0).path] }, []) :=
  ⟨rfl, rfl, by decide, rfl,
    C2_rediscovery_appends c2WArena 0 c2WName (fun _ => none) false c2WDef
      "/lib/a.py" 1 rfl rfl (by decide) rfl⟩

/-! ## Analysis of the graph builder: unresolved references -/
theorem mem_insertTreeSet_self (l : List Tree) (t : Tree) :
    t ∈ insertTreeSet l t := by
  rw [insertTreeSet]
  split
  · next h => exact List.mem_of_elem_eq_true h
  · exact List.mem_append_right _ (List.mem_singleton.mpr rfl)

theorem mem_insertTreeSet_mono (l : List Tree) (t u : Tree) (h : u ∈ l) :
    u ∈ insertTreeSet l t := by
  rw [insertTreeSet]
  split
  · exact h
  · exact List.mem_append_left _ h

theorem explore_step_mem_mono (treeId tdepth : Nat) (tpath : Option String)
    (nm : JediName) (ltr : Nat → Option String) (w : Bool)
    (acc : Arena × List Tree) (d : JediDefinition) (u : Tree)
    (h : u ∈ acc.2) :
    u ∈ (explore_step treeId tdepth tpath nm ltr w acc d).2 := by
  obtain ⟨st, children⟩ := acc
  cases hmp : d.module_path with
  | some p =>
    simp only [explore_step, hmp]
    by_cases hne : some p ≠ tpath
    · rw [if_pos hne]
      cases hs : Tree.search_node st st.nodes.length
          (Tree.to_root st st.nodes.length treeId) p with
      | none => exact mem_insertTreeSet_mono _ _ _ h
      | some nodeId => exact h
    · rw [if_neg hne]
      exact h
  | none =>
    simp only [explore_step, hmp]
    by_cases hty : nm.ntype = "module"
    · rw [if_pos hty]
      exact mem_insertTreeSet_mono _ _ _ h
    · rw [if_neg hty]
      exact h

theorem explore_fold_mem (treeId tdepth : Nat) (tpath : Option String)
    (nm : JediName) (ltr : Nat → Option String) (w : Bool)
    (l : List JediDefinition) :
    ∀ (acc : Arena × List Tree) (u : Tree), u ∈ acc.2 →
      u ∈ (l.foldl (explore_step treeId tdepth tpath nm ltr w) acc).2 := by
  induction l with
  | nil => intro acc u h; exact h
  | cons d rest ih =>
    intro acc u h
    rw [List.foldl_cons]
    exact ih _ u (explore_step_mem_mono treeId tdepth tpath nm ltr w acc d u h)

theorem explore_step_notfound (treeId tdepth : Nat) (tpath : Option String)
    (nm : JediName) (ltr : Nat → Option String) (w : Bool)
    (acc : Arena × List Tree) (d : JediDefinition)
    (hmp : d.module_path = none) (hty : nm.ntype = "module") :
    notFoundChild treeId tdepth nm ltr w ∈
      (explore_step treeId tdepth tpath nm ltr w acc d).2 := by
  obtain ⟨st, children⟩ := acc
  simp only [explore_step, hmp]
  rw [if_pos hty]
  exact mem_insertTreeSet_self _ _

/-- C8 (counterexample).  The guard reads the reference's jedi type
(`name.type == 'module'`), not the definition's: here the definition is
module-typed with no backing file path, yet because the reference itself
is typed `statement` no `not_found` child is created — the definition is
silently dropped and the result carries no child at all. -/
theorem C8_module_type_counterexample :
    (⟨none, some "os", "module"⟩ : JediDefinition).dtype = "module" ∧
    (⟨none, some "os", "module"⟩ : JediDefinition).module_path = none ∧
    explore_name_definitions c8Arena 0 c8Name (fun _ => none) false =
      (c8Arena, []) :=
  ⟨rfl, rfl, rfl⟩

/-- C8 (amended).  A reference whose resolution returns zero defining
files always yields exactly one child flagged `not_found = true`,
carrying the reference name, the originating import name
(`line_to_ref`) and the source line; a definition with no backing file
path yields such a child only when the reference itself is module-typed
(`name.type == 'module'` — the definition's own type is never
consulted), and is skipped silently otherwise.  Either way no error is
raised and the remaining definitions are still folded. -/
theorem C8_unresolved_as_data (st : Arena) (treeId : Nat) (nm : JediName)
    (ltr : Nat → Option String) (w : Bool) :
    (nm.goto = [] →
      explore_name_definitions st treeId nm ltr w =
        (st, [notFoundChild treeId (st.get treeId).depth nm ltr w])) ∧
    (∀ d ∈ nm.goto, d.module_path = none → nm.ntype = "module" →
      notFoundChild treeId (st.get treeId).depth nm ltr w ∈
        (explore_name_definitions st treeId nm ltr w).2) := by
  constructor
  · intro hg
    simp only [explore_name_definitions]
    rw [if_pos hg]
  · intro d hd hmp hty
    obtain ⟨l1, l2, hsplit⟩ := List.append_of_mem hd
    have hgoto : ¬ (nm.goto = []) := by
      rw [hsplit]
      simp
    simp only [explore_name_definitions]
    rw [if_neg hgoto, hsplit, List.foldl_append, List.foldl_cons]
    exact explore_fold_mem treeId (st.get treeId).depth (st.get treeId).path
      nm ltr w l2 _ _
      (explore_step_notfound treeId (st.get treeId).depth (st.get treeId).path
        nm ltr w _ d hmp hty)

theorem C8_unresolved_as_data_witness :
    c8WEmpty.goto = [] ∧
    c8WDef ∈ c8WModule.goto ∧
    c8WDef.module_path = none ∧
    c8WModule.ntype = "module" ∧
    explore_name_definitions c8Arena 0 c8WEmpty (fun _ => none) false =
      (c8Arena, [notFoundChild 0 (c8Arena.get 0).depth c8WEmpty
        (fun _ => none) false]) ∧
    notFoundChild 0 (c8Arena.get 0).depth c8WModule (fun _ => none) true ∈
      (explore_name_definitions c8Arena 0 c8WModule (fun _ => none) true).2 :=
  ⟨rfl, List.mem_singleton.mpr rfl, rfl, rfl,
    (C8_unresolved_as_data c8Arena 0 c8WEmpty (fun _ => none) false).1 rfl,
    (C8_unresolved_as_data c8Arena 0 c8WModule (fun _ => none) true).2
      c8WDef (List.mem_singleton.mpr rfl) rfl rfl⟩

/-! ## Analysis of stub expansion -/
theorem Arena.length_set (st : Arena) (i : Nat) (t : Tree) :
    (st.set i t).nodes.length = st.nodes.length := by
  simp [Arena.set]

theorem Arena.get_set_self (st : Arena) (i : Nat) (t : Tree)
    (h : i < st.nodes.length) : (st.set i t).get i = t := by
  simp [Arena.set, Arena.get, List.getD_eq_getElem?_getD,
    List.getElem?_set_eq_of_lt t h]

theorem Arena.get_set_other (st : Arena) (i j : Nat) (t : Tree)
    (h : i ≠ j) : (st.set i t).get j = st.get j := by
  simp [Arena.set, Arena.get, List.getD_eq_getElem?_getD,
    List.getElem?_set_ne h]

theorem Arena.get_append_lt (st : Arena) (l : List Tree) (i : Nat)
    (h : i < st.nodes.length) :
    (Arena.mk (st.nodes ++ l)).get i = st.get i := by
  simp [Arena.get, List.getD_eq_getElem?_getD, List.getElem?_append_left h]

theorem Arena.get_append_self (st : Arena) (t : Tree) :
    (Arena.mk (st.nodes ++ [t])).get st.nodes.length = t := by
  simp only [Arena.get, List.getD_eq_getElem?_getD]
  rw [List.getElem?_append_right le_rfl]
  simp

theorem Arena.get_default (st : Arena) (i : Nat) (h : st.nodes.length ≤ i) :
    st.get i = {} := by
  simp [Arena.get, List.getD_eq_getElem?_getD, List.getElem?_eq_none h]

theorem Arena.lt_of_path_some (st : Arena) (i : Nat) (q : String)
    (h : (st.get i).path = some q) : i < st.nodes.length := by
  by_contra hc
  rw [Arena.get_default st i (Nat.le_of_not_lt hc)] at h
  exact Option.noConfusion h

theorem addChildSet_length (st : Arena) (j : Nat) (t : Tree) :
    st.nodes.length ≤ (addChildSet st j t).nodes.length := by
  simp only [addChildSet]
  split
  · exact le_rfl
  · simp only [Arena.set, List.length_set, List.length_append,
      List.length_cons, List.length_nil]
    omega

theorem addChildSet_get_fields (st : Arena) (j : Nat) (t : Tree) (id : Nat)
    (hid : id < st.nodes.length) (hj : j < st.nodes.length) :
    ((addChildSet st j t).get id).path = (st.get id).path ∧
    ((addChildSet st j t).get id).is_stub = (st.get id).is_stub ∧
    ((addChildSet st j t).get id).parent = (st.get id).parent ∧
    ((addChildSet st j t).get id).depth = (st.get id).depth ∧
    ((addChildSet st j t).get id).name = (st.get id).name := by
  simp only [addChildSet]
  split
  · exact ⟨rfl, rfl, rfl, rfl, rfl⟩
  · by_cases hij : id = j
    · subst hij
      rw [Arena.get_set_self _ _ _ (by simp; omega),
        Arena.get_append_lt st [t] id hid]
      exact ⟨rfl, rfl, rfl, rfl, rfl⟩
    · rw [Arena.get_set_other _ _ _ _ (fun he => hij he.symm),
        Arena.get_append_lt st [t] id hid]
      exact ⟨rfl, rfl, rfl, rfl, rfl⟩

theorem addChildSet_children_mono (st : Arena) (j : Nat) (t : Tree)
    (hj : j < st.nodes.length) (id : Nat) (h : id ∈ (st.get j).children) :
    id ∈ ((addChildSet st j t).get j).children := by
  simp only [addChildSet]
  split
  · exact h
  · rw [Arena.get_set_self _ _ _ (by simp; omega),
      Arena.get_append_lt st [t] j hj]
    exact List.mem_append_left _ h

theorem addChildSet_mem (st : Arena) (j : Nat) (t : Tree)
    (hj : j < st.nodes.length) :
    ∃ id ∈ ((addChildSet st j t).get j).children,
      (addChildSet st j t).get id = t := by
  simp only [addChildSet]
  split
  · next h =>
    obtain ⟨c, hc, hct⟩ := List.mem_map.mp (List.mem_of_elem_eq_true h)
    exact ⟨c, hc, hct⟩
  · refine ⟨st.nodes.length, ?_, ?_⟩
    · rw [Arena.get_set_self _ _ _ (by simp; omega),
        Arena.get_append_lt st [t] j hj]
      exact List.mem_append_right _ (List.mem_singleton.mpr rfl)
    · rw [Arena.get_set_other _ _ _ _ (by omega : j ≠ st.nodes.length)]
      exact Arena.get_append_self st t

theorem stub_attach_spec (dn : String) (i j : Nat) :
    ∀ (files : List String) (st : Arena),
      (st.get i).parent = some j → i < st.nodes.length →
      j < st.nodes.length →
      ∃ st', stub_attach_files dn i (some st) files = some st' ∧
        st.nodes.length ≤ st'.nodes.length ∧
        (∀ id, id < st.nodes.length →
          (st'.get id).path = (st.get id).path ∧
          (st'.get id).is_stub = (st.get id).is_stub ∧
          (st'.get id).parent = (st.get id).parent) ∧
        (∀ id, id ∈ (st.get j).children → id ∈ (st'.get j).children) ∧
        (∀ f ∈ files, ∃ id ∈ (st'.get j).children,
          (st'.get id).path = some (dn ++ "/" ++ f)) := by
  intro files
  induction files with
  | nil =>
    intro st hp hi hj
    exact ⟨st, rfl, le_rfl, fun id _ => ⟨rfl, rfl, rfl⟩, fun id h => h,
      fun f hf => absurd hf (List.not_mem_nil f)⟩
  | cons file rest ih =>
    intro st hp hi hj
    obtain ⟨t, ht⟩ : ∃ t : Tree, t =
        { depth := (st.get i).depth, name := (st.get i).name,
          path := some (dn ++ "/" ++ file), parent := some j } := ⟨_, rfl⟩
    obtain ⟨st2, hst2⟩ : ∃ st2, st2 = addChildSet st j t := ⟨_, rfl⟩
    have hlen2 : st.nodes.length ≤ st2.nodes.length := by
      rw [hst2]
      exact addChildSet_length st j t
    have hfields : ∀ id, id < st.nodes.length →
        (st2.get id).path = (st.get id).path ∧
        (st2.get id).is_stub = (st.get id).is_stub ∧
        (st2.get id).parent = (st.get id).parent ∧
        (st2.get id).depth = (st.get id).depth ∧
        (st2.get id).name = (st.get id).name := by
      rw [hst2]
      exact fun id hid => addChildSet_get_fields st j t id hid hj
    have hp2 : (st2.get i).parent = some j := by
      rw [(hfields i hi).2.2.1, hp]
    obtain ⟨st', heq, hlen', hpres', hmono', hfiles'⟩ :=
      ih st2 hp2 (Nat.lt_of_lt_of_le hi hlen2) (Nat.lt_of_lt_of_le hj hlen2)
    refine ⟨st', ?_, Nat.le_trans hlen2 hlen', ?_, ?_, ?_⟩
    · simp only [stub_attach_files, hp]
      rw [← ht, ← hst2]
      exact heq
    · intro id hid
      have h2 := hfields id hid
      have h3 := hpres' id (Nat.lt_of_lt_of_le hid hlen2)
      exact ⟨h3.1.trans h2.1, h3.2.1.trans h2.2.1, h3.2.2.trans h2.2.2.1⟩
    · intro id h
      refine hmono' id ?_
      rw [hst2]
      exact addChildSet_children_mono st j t hj id h
    · intro f hf
      rcases List.mem_cons.mp hf with hf | hf
      · subst hf
        obtain ⟨id, hidmem, hidval⟩ := addChildSet_mem st j t hj
        rw [← hst2] at hidmem hidval
        have hpath : (st2.get id).path = some (dn ++ "/" ++ f) := by
          rw [hidval, ht]
        have hlt : id < st2.nodes.length := Arena.lt_of_path_some st2 id _ hpath
        exact ⟨id, hmono' id hidmem, (hpres' id hlt).1.trans hpath⟩
      · exact hfiles' f hf

/-- C9 (counterexample).  The source filters the stub's directory with
`f.startswith(filename.split('.')[0])`, not by equal base name: for stub
`foo.pyi` the unrelated sibling `foobar.py` passes the prefix test and is
attached as a child of the stub's parent, while the spec's
same-base-name reading admits no sibling at all here. -/
theorem C9_same_base_counterexample :
    claimed_stub_siblings c9Ld "/d/foo.pyi" = [] ∧
    (stub_add_node c9Arena 1 c9Ld).map (fun st' =>
      (st'.get 0).children.map (fun c => (st'.get c).path)) =
      some [some "/d/foobar.py"] :=
  ⟨rfl, rfl⟩

theorem stub_add_node_eq (st : Arena) (i : Nat)
    (listdir : String → List String) :
    stub_add_node st i listdir =
      ((st.get i).probable_paths ++
        (match (st.get i).path with
          | some q => if q = "" then [] else [q]
          | none => [])).foldl (stub_step i listdir) (some st) := rfl

theorem set_stub_fields (st : Arena) (i : Nat) (hi : i < st.nodes.length)
    (id : Nat) :
    ((st.set i { st.get i with is_stub := true }).get id).path =
        (st.get id).path ∧
    ((st.set i { st.get i with is_stub := true }).get id).parent =
        (st.get id).parent ∧
    ((st.set i { st.get i with is_stub := true }).get id).children =
        (st.get id).children := by
  by_cases hii : id = i
  · subst hii
    rw [Arena.get_set_self st id _ hi]
    exact ⟨rfl, rfl, rfl⟩
  · rw [Arena.get_set_other st i id _ (fun he => hii he.symm)]
    exact ⟨rfl, rfl, rfl⟩

theorem stub_fold_spec (i j : Nat) (listdir : String → List String) :
    ∀ (l : List String) (st : Arena),
      (st.get i).parent = some j → i < st.nodes.length →
      j < st.nodes.length →
      ∃ st', l.foldl (stub_step i listdir) (some st) = some st' ∧
        st.nodes.length ≤ st'.nodes.length ∧
        (∀ id, id < st.nodes.length →
          (st'.get id).path = (st.get id).path) ∧
        (∀ id, id ∈ (st.get j).children → id ∈ (st'.get j).children) ∧
        ((st.get i).is_stub = true → (st'.get i).is_stub = true) ∧
        (∀ p ∈ l, lastExt p = "pyi" →
          (st'.get i).is_stub = true ∧
          ∀ f ∈ (listdir (dirnameStr p)).filter (fun f =>
              (firstDotComponent (basenameStr p)).toList.isPrefixOf
                f.toList && f ≠ basenameStr p),
            ∃ id ∈ (st'.get j).children,
              (st'.get id).path = some (dirnameStr p ++ "/" ++ f)) := by
  intro l
  induction l with
  | nil =>
    intro st hp hi hj
    exact ⟨st, rfl, le_rfl, fun id _ => rfl, fun id h => h, fun h => h,
      fun p hp => absurd hp (List.not_mem_nil p)⟩
  | cons p rest ih =>
    intro st hp hi hj
    by_cases hext : lastExt p = "pyi"
    · have hA := set_stub_fields st i hi
      have hAparent :
          ((st.set i { st.get i with is_stub := true }).get i).parent =
            some j := by
        rw [(hA i).2.1]
        exact hp
      have hAstub :
          ((st.set i { st.get i with is_stub := true }).get i).is_stub =
            true := by
        rw [Arena.get_set_self st i _ hi]
      obtain ⟨stB, heqB, hlenB, hpresB, hmonoB, hfilesB⟩ :=
        stub_attach_spec (dirnameStr p) i j
          ((listdir (dirnameStr p)).filter (fun f =>
            (firstDotComponent (basenameStr p)).toList.isPrefixOf f.toList &&
              f ≠ basenameStr p))
          (st.set i { st.get i with is_stub := true }) hAparent
          (by rw [Arena.length_set]; exact hi)
          (by rw [Arena.length_set]; exact hj)
      have hiB : i < stB.nodes.length := by
        refine Nat.lt_of_lt_of_le ?_ hlenB
        rw [Arena.length_set]
        exact hi
      have hjB : j < stB.nodes.length := by
        refine Nat.lt_of_lt_of_le ?_ hlenB
        rw [Arena.length_set]
        exact hj
      have hBparent : (stB.get i).parent = some j := by
        rw [(hpresB i (by rw [Arena.length_set]; exact hi)).2.2]
        exact hAparent
      have hBstub : (stB.get i).is_stub = true := by
        rw [(hpresB i (by rw [Arena.length_set]; exact hi)).2.1]
        exact hAstub
      obtain ⟨st', heq', hlen', hpath', hmono', hstub', hl'⟩ :=
        ih stB hBparent hiB hjB
      have hBpath : ∀ id, id < st.nodes.length →
          (stB.get id).path = (st.get id).path := by
        intro id hid
        rw [(hpresB id (by rw [Arena.length_set]; exact hid)).1, (hA id).1]
      have hBmono : ∀ id, id ∈ (st.get j).children →
          id ∈ (stB.get j).children := by
        intro id hid
        refine hmonoB id ?_
        rw [(hA j).2.2]
        exact hid
      refine ⟨st', ?_, ?_, ?_, ?_, ?_, ?_⟩
      · rw [List.foldl_cons]
        simp only [stub_step]
        rw [if_pos hext, heqB]
        exact heq'
      · refine Nat.le_trans ?_ hlen'
        refine Nat.le_trans ?_ hlenB
        rw [Arena.length_set]
      · intro id hid
        rw [hpath' id (by
          refine Nat.lt_of_lt_of_le ?_ hlenB
          rw [Arena.length_set]
          exact hid)]
        exact hBpath id hid
      · intro id hid
        exact hmono' id (hBmono id hid)
      · intro _
        exact hstub' hBstub
      · intro q hq hqext
        rcases List.mem_cons.mp hq with hq | hq
        · subst hq
          refine ⟨hstub' hBstub, ?_⟩
          intro f hf
          obtain ⟨id, hidmem, hidpath⟩ := hfilesB f hf
          have hlt : id < stB.nodes.length :=
            Arena.lt_of_path_some stB id _ hidpath
          exact ⟨id, hmono' id hidmem, (hpath' id hlt).trans hidpath⟩
        · exact hl' q hq hqext
    · obtain ⟨st', heq', hlen', hpath', hmono', hstub', hl'⟩ :=
        ih st hp hi hj
      refine ⟨st', ?_, hlen', hpath', hmono', hstub', ?_⟩
      · rw [List.foldl_cons]
        simp only [stub_step]
        rw [if_neg hext]
        exact heq'
      · intro q hq hqext
        rcases List.mem_cons.mp hq with hq | hq
        · subst hq
          exact absurd hqext hext
        · exact hl' q hq hqext

/-- C9 (amended).  For a node whose resolved path or any of whose
probable paths is a `.pyi` file, stub expansion marks the node
`is_stub = true` and ensures that, for every file of that stub path's
directory whose name starts with the stub's base name (the part before
the first dot) and differs from the stub's filename — a prefix test,
not a same-base-name test — the node's parent owns a child carrying
that file's path. -/
theorem C9_stub_siblings (st : Arena) (i j : Nat) (p : String)
    (listdir : String → List String)
    (hmem : p ∈ (st.get i).probable_paths ∨
      ((st.get i).path = some p ∧ ¬ (p = "")))
    (hext : lastExt p = "pyi")
    (hparent : (st.get i).parent = some j)
    (hi : i < st.nodes.length)
    (hj : j < st.nodes.length) :
    ∃ st', stub_add_node st i listdir = some st' ∧
      (st'.get i).is_stub = true ∧
      ∀ f ∈ (listdir (dirnameStr p)).filter (fun f =>
          (firstDotComponent (basenameStr p)).toList.isPrefixOf f.toList &&
            f ≠ basenameStr p),
        ∃ id ∈ (st'.get j).children,
          (st'.get id).path = some (dirnameStr p ++ "/" ++ f) := by
  have hall : p ∈ (st.get i).probable_paths ++
      (match (st.get i).path with
        | some q => if q = "" then [] else [q]
        | none => []) := by
    rcases hmem with hmem | ⟨hpath, hne⟩
    · exact List.mem_append_left _ hmem
    · refine List.mem_append_right _ ?_
      simp only [hpath]
      rw [if_neg hne]
      exact List.mem_singleton.mpr rfl
  obtain ⟨st', heq, hlen, hpath', hmono, hstub, hl⟩ :=
    stub_fold_spec i j listdir
      ((st.get i).probable_paths ++
        (match (st.get i).path with
          | some q => if q = "" then [] else [q]
          | none => []))
      st hparent hi hj
  obtain ⟨hs, hf⟩ := hl p hall hext
  exact ⟨st', (stub_add_node_eq st i listdir).trans heq, hs, hf⟩

theorem C9_stub_siblings_witness :
    ((c9Arena.get 1).path = some "/d/foo.pyi" ∧ ¬ ("/d/foo.pyi" = "")) ∧
    lastExt "/d/foo.pyi" = "pyi" ∧
    (c9Arena.get 1).parent = some 0 ∧
    ∃ st', stub_add_node c9Arena 1 c9Ld = some st' ∧
      (st'.get 1).is_stub = true ∧
      ∀ f ∈ (c9Ld (dirnameStr "/d/foo.pyi")).filter (fun f =>
          (firstDotComponent (basenameStr "/d/foo.pyi")).toList.isPrefixOf
            f.toList && f ≠ basenameStr "/d/foo.pyi"),
        ∃ id ∈ (st'.get 0).children,
          (st'.get id).path = some (dirnameStr "/d/foo.pyi" ++ "/" ++ f) :=
  ⟨⟨rfl, by decide⟩, rfl, rfl,
    C9_stub_siblings c9Arena 1 0 "/d/foo.pyi" c9Ld
      (Or.inr ⟨rfl, by decide⟩) rfl rfl (by decide) (by decide)⟩

end LayerLite
